import Mathlib

/-!
Verification of the pipeline-orchestration core of the `odace-standalone`
repository: the dependency resolver (`app/core/pipeline_executor.py`,
`PipelineExecutor._resolve_dependencies`), the executor
(`execute_pipeline`, `execute_with_dependencies`, `execute_full_pipeline`),
the job/task tracker (`app/core/job_manager.py`) and the checkpoint store
(`app/utils/checkpoint.py`), shallowly embedded as executable Lean
definitions.
-/

deriving instance DecidableEq for Except

namespace Odace

/-- `PipelineLayer` enum from `app/core/models.py` (values bronze/silver/gold). -/
inductive PipelineLayer
  | bronze
  | silver
  | gold
deriving DecidableEq, Repr

/-- `PipelineLayer.value` - the string value of the enum member. -/
def PipelineLayer.value : PipelineLayer → String
  | .bronze => "bronze"
  | .silver => "silver"
  | .gold => "gold"

/-- `PipelineLayer(s)` constructor lookup: `some` member whose value is `s`,
`none` models the `ValueError` Python raises for an unknown value. -/
def PipelineLayer.ofString? : String → Option PipelineLayer
  | "bronze" => some .bronze
  | "silver" => some .silver
  | "gold" => some .gold
  | _ => none

/-- A pipeline identifier `(layer, name)` as used in the resolver's output. -/
abbrev PipelineId := PipelineLayer × String

/-- The `full_name` string `f"{layer.value}.{name}"` used for cycle detection. -/
def fullNameOf (layer : PipelineLayer) (name : String) : String :=
  layer.value ++ "." ++ name

/-- `dep.split(".", 1)` on the character list: characters before the first
`'.'` and the remainder after it. -/
def splitAtFirstDot : List Char → List Char × List Char
  | [] => ([], [])
  | c :: cs =>
    if c = '.' then ([], cs)
    else
      let p := splitAtFirstDot cs
      (c :: p.1, p.2)

/-- `dep.split(".", 1)` for a string containing a dot: the prefix before the
first `'.'` and the suffix after it. -/
def splitDot (s : String) : String × String :=
  let p := splitAtFirstDot s.toList
  (String.mk p.1, String.mk p.2)

/-- The registry's `_dependencies` dict: `full_name ↦ dependency strings`
(`PipelineRegistry.register` stores `dependencies or []` under
`f"{layer_str}.{name}"`). -/
abbrev Registry := List (String × List String)

/-- `PipelineRegistry.get_dependencies`: `self._dependencies.get(full_name, [])`. -/
def getDependencies (reg : Registry) (fullName : String) : List String :=
  match reg.lookup fullName with
  | some ds => ds
  | none => []

/-- The duplicate-removal loop at the end of `_resolve_dependencies`
(`seen` set accumulator; keeps the first occurrence of each item). -/
def dedupFrom {α : Type} [DecidableEq α] (seen : List α) : List α → List α
  | [] => []
  | x :: xs => if x ∈ seen then dedupFrom seen xs else x :: dedupFrom (x :: seen) xs

/-- "Remove duplicates while preserving order" (first occurrence kept),
`seen = set()` initially. -/
def dedupFirst {α : Type} [DecidableEq α] (l : List α) : List α :=
  dedupFrom [] l

/-- The exceptions `_resolve_dependencies` can raise: the
`ValueError(f"Circular dependency detected: {full_name}")` cycle guard and the
`ValueError` from `PipelineLayer(dep_layer_str)` on an invalid layer string.
`fuelExhausted` is an artifact of the embedding's fuel parameter; `resolve`
supplies enough fuel that it never occurs (`resolve_no_fuelExhausted`). -/
inductive ResolveError
  | circular (fullName : String)
  | invalidLayer (layerStr : String)
  | fuelExhausted
deriving DecidableEq, Repr

/-- The `for dep in dependencies` loop body of `_resolve_dependencies`:
dependencies containing a `"."` are split at the first dot, their layer parsed,
and resolved recursively via `f` (the recursive call with the path-scoped
visited copy); their results are concatenated left to right.  Dependency
strings without a `"."` are skipped. -/
def resolveList (f : PipelineLayer → String → Except ResolveError (List PipelineId)) :
    List String → Except ResolveError (List PipelineId)
  | [] => Except.ok []
  | d :: rest =>
    if '.' ∈ d.toList then
      match PipelineLayer.ofString? (splitDot d).1 with
      | none => Except.error (.invalidLayer (splitDot d).1)
      | some dl =>
        match f dl (splitDot d).2 with
        | Except.error e => Except.error e
        | Except.ok sub =>
          match resolveList f rest with
          | Except.error e => Except.error e
          | Except.ok more => Except.ok (sub ++ more)
    else resolveList f rest

/-- `PipelineExecutor._resolve_dependencies(layer, name, visited)`.
`visited` is the set of full names on the current recursion path; each
recursive call receives `visited.copy()` with the current full name added,
so sibling branches do not share mutations.  The fuel parameter only makes
the recursion structural; `resolve` passes enough for it never to run out. -/
def resolveDeps (reg : Registry) :
    Nat → PipelineLayer → String → List String → Except ResolveError (List PipelineId)
  | 0, _, _, _ => Except.error .fuelExhausted
  | fuel + 1, layer, name, visited =>
    if fullNameOf layer name ∈ visited then
      Except.error (.circular (fullNameOf layer name))
    else
      match resolveList
          (fun dl dn => resolveDeps reg fuel dl dn (fullNameOf layer name :: visited))
          (getDependencies reg (fullNameOf layer name)) with
      | Except.error e => Except.error e
      | Except.ok subs => Except.ok (dedupFirst (subs ++ [(layer, name)]))

/-- Top-level resolution: `_resolve_dependencies(layer, name)` with
`visited = set()`.  `reg.length + 1` fuel always suffices (each nesting level
consumes a distinct registry key). -/
def resolve (reg : Registry) (layer : PipelineLayer) (name : String) :
    Except ResolveError (List PipelineId) :=
  resolveDeps reg (reg.length + 1) layer name []

example :
    resolve [("bronze.geo", []), ("silver.geo", ["bronze.geo"])] .silver "geo" =
      Except.ok [(.bronze, "geo"), (.silver, "geo")] := by decide

example :
    resolve [("silver.x", ["silver.y"]), ("silver.y", ["silver.x"])] .silver "x" =
      Except.error (.circular "silver.x") := by decide

/-! ### Dependency edges and reachability

`parseDep` captures how the resolver's loop interprets one declared
dependency string: strings without a dot are skipped, strings with a dot are
split at the first dot and their layer string parsed. -/

/-- The pipeline id a declared dependency string refers to, if the loop
processes it: `none` both for dot-free strings (skipped) and for invalid
layer strings (which raise instead). -/
def parseDep (d : String) : Option PipelineId :=
  if '.' ∈ d.toList then
    match PipelineLayer.ofString? (splitDot d).1 with
    | some dl => some (dl, (splitDot d).2)
    | none => none
  else none

/-- `q` is a (well-formed) declared dependency of `p` in the registry. -/
def DepEdge (reg : Registry) (p q : PipelineId) : Prop :=
  ∃ d ∈ getDependencies reg (fullNameOf p.1 p.2), parseDep d = some q

/-- Reachability along dependency edges (reflexive-transitive closure). -/
inductive Reachable (reg : Registry) : PipelineId → PipelineId → Prop
  | refl (p : PipelineId) : Reachable reg p p
  | head {p q r : PipelineId} : DepEdge reg p q → Reachable reg q r → Reachable reg p r

/-- Every declared dependency string that contains a dot has a valid layer
component, so processing it never raises the enum `ValueError`. -/
def WFDeps (reg : Registry) : Prop :=
  ∀ p ∈ reg, ∀ d ∈ p.2, '.' ∈ d.toList → (PipelineLayer.ofString? (splitDot d).1).isSome

theorem Reachable.snoc {reg : Registry} {p q r : PipelineId}
    (h : Reachable reg p q) (e : DepEdge reg q r) : Reachable reg p r := by
  induction h with
  | refl _ => exact .head e (.refl _)
  | head e' _ ih => exact .head e' (ih e)

/-! ### Basic lemmas about the stable dedup loop -/

theorem mem_dedupFrom {α : Type} [DecidableEq α] {seen l : List α} {x : α} :
    x ∈ dedupFrom seen l ↔ x ∈ l ∧ x ∉ seen := by
  induction l generalizing seen with
  | nil => simp [dedupFrom]
  | cons a l ih =>
    by_cases ha : a ∈ seen
    · rw [dedupFrom, if_pos ha, ih]
      constructor
      · rintro ⟨h1, h2⟩; exact ⟨List.mem_cons_of_mem _ h1, h2⟩
      · rintro ⟨h1, h2⟩
        rcases List.mem_cons.mp h1 with rfl | h1
        · exact absurd ha h2
        · exact ⟨h1, h2⟩
    · rw [dedupFrom, if_neg ha]
      constructor
      · intro h
        rcases List.mem_cons.mp h with rfl | h
        · exact ⟨List.mem_cons_self _ _, ha⟩
        · rcases ih.mp h with ⟨h1, h2⟩
          refine ⟨List.mem_cons_of_mem _ h1, fun hs => h2 (List.mem_cons_of_mem _ hs)⟩
      · rintro ⟨h1, h2⟩
        rcases List.mem_cons.mp h1 with rfl | h1
        · exact List.mem_cons_self _ _
        · by_cases hxa : x = a
          · subst hxa; exact List.mem_cons_self _ _
          · exact List.mem_cons_of_mem _ (ih.mpr ⟨h1, by
              intro hs
              rcases List.mem_cons.mp hs with rfl | hs
              · exact hxa rfl
              · exact h2 hs⟩)

theorem nodup_dedupFrom {α : Type} [DecidableEq α] (seen l : List α) :
    (dedupFrom seen l).Nodup := by
  induction l generalizing seen with
  | nil => exact List.nodup_nil
  | cons a l ih =>
    by_cases ha : a ∈ seen
    · rw [dedupFrom, if_pos ha]; exact ih seen
    · rw [dedupFrom, if_neg ha]
      refine List.nodup_cons.mpr ⟨fun hmem => ?_, ih _⟩
      exact (mem_dedupFrom.mp hmem).2 (List.mem_cons_self _ _)

theorem dedupFrom_congr {α : Type} [DecidableEq α] {s₁ s₂ : List α}
    (h : ∀ x, x ∈ s₁ ↔ x ∈ s₂) (l : List α) :
    dedupFrom s₁ l = dedupFrom s₂ l := by
  induction l generalizing s₁ s₂ with
  | nil => rfl
  | cons a l ih =>
    by_cases ha : a ∈ s₁
    · rw [dedupFrom, dedupFrom, if_pos ha, if_pos ((h a).mp ha)]
      exact ih h
    · rw [dedupFrom, dedupFrom, if_neg ha, if_neg (fun hh => ha ((h a).mpr hh))]
      refine congrArg (a :: ·) (ih fun x => ?_)
      simp only [List.mem_cons]
      exact or_congr Iff.rfl (h x)

theorem dedupFrom_append {α : Type} [DecidableEq α] (seen A B : List α) :
    dedupFrom seen (A ++ B) = dedupFrom seen A ++ dedupFrom (A ++ seen) B := by
  induction A generalizing seen with
  | nil => simp [dedupFrom]
  | cons a A ih =>
    by_cases ha : a ∈ seen
    · rw [List.cons_append, dedupFrom, if_pos ha, dedupFrom, if_pos ha, ih]
      refine congrArg _ (dedupFrom_congr (fun x => ?_) B)
      simp only [List.mem_append, List.mem_cons]
      constructor
      · rintro (h | h)
        · exact Or.inl (Or.inr h)
        · exact Or.inr h
      · rintro (h | h)
        · rcases h with rfl | h
          · exact Or.inr ha
          · exact Or.inl h
        · exact Or.inr h
    · rw [List.cons_append, dedupFrom, if_neg ha, dedupFrom, if_neg ha, ih, List.cons_append]
      refine congrArg _ (congrArg _ (dedupFrom_congr (fun x => ?_) B))
      simp only [List.mem_append, List.mem_cons]
      tauto

theorem mem_dedupFirst {α : Type} [DecidableEq α] {l : List α} {x : α} :
    x ∈ dedupFirst l ↔ x ∈ l := by
  rw [dedupFirst, mem_dedupFrom]
  simp

theorem nodup_dedupFirst {α : Type} [DecidableEq α] (l : List α) :
    (dedupFirst l).Nodup :=
  nodup_dedupFrom [] l

theorem dedupFirst_append_singleton {α : Type} [DecidableEq α] {A : List α} {x : α}
    (hx : x ∉ A) : dedupFirst (A ++ [x]) = dedupFirst A ++ [x] := by
  rw [dedupFirst, dedupFrom_append]
  refine congrArg _ ?_
  rw [dedupFrom, if_neg (by simpa using hx), dedupFrom]

/-! ### The relative-order predicate

`firstBefore a b l` says the first occurrence of `a` in `l` comes strictly
before the first occurrence of `b`: some split of `l` has `a` in the left
part, which is `b`-free, and `b` in the right part. -/

def firstBefore {α : Type} (a b : α) (l : List α) : Prop :=
  ∃ l₁ l₂, l = l₁ ++ l₂ ∧ a ∈ l₁ ∧ b ∉ l₁ ∧ b ∈ l₂

theorem firstBefore_irrefl {α : Type} {a : α} {l : List α} : ¬ firstBefore a a l := by
  rintro ⟨l₁, l₂, -, h1, h2, -⟩
  exact h2 h1

theorem firstBefore_trans {α : Type} {a b c : α} {l : List α}
    (hab : firstBefore a b l) (hbc : firstBefore b c l) : firstBefore a c l := by
  obtain ⟨l₁, l₂, hl, ha, hbn, hb⟩ := hab
  obtain ⟨m₁, m₂, hm, hbm, hcn, hc⟩ := hbc
  have heq : l₁ ++ l₂ = m₁ ++ m₂ := by rw [← hl, ← hm]
  rcases List.append_eq_append_iff.mp heq with ⟨a', rfl, rfl⟩ | ⟨c', rfl, rfl⟩
  · exact ⟨l₁ ++ a', m₂, by rw [hl, List.append_assoc], List.mem_append_left _ ha, hcn, hc⟩
  · exact absurd (List.mem_append_left _ hbm) hbn

theorem firstBefore_mem_left {α : Type} {a b : α} {l : List α}
    (h : firstBefore a b l) : a ∈ l := by
  obtain ⟨l₁, l₂, rfl, ha, -, -⟩ := h
  exact List.mem_append_left _ ha

theorem firstBefore_mem_right {α : Type} {a b : α} {l : List α}
    (h : firstBefore a b l) : b ∈ l := by
  obtain ⟨l₁, l₂, rfl, -, -, hb⟩ := h
  exact List.mem_append_right _ hb

/-- Splitting a list around a middle segment: order inside the segment is
preserved, provided the element that must come second does not already occur
in the part before the segment. -/
theorem firstBefore_of_middle {α : Type} {a b : α} {pre s post : List α}
    (hs : firstBefore a b s) (hbpre : b ∉ pre) :
    firstBefore a b (pre ++ s ++ post) := by
  obtain ⟨u, v, rfl, ha, hbu, hbv⟩ := hs
  refine ⟨pre ++ u, v ++ post, by simp [List.append_assoc], List.mem_append_right _ ha, ?_, List.mem_append_left _ hbv⟩
  intro hmem
  rcases List.mem_append.mp hmem with h | h
  · exact hbpre h
  · exact hbu h

/-- Appending on the right cannot destroy a first-occurrence order. -/
theorem firstBefore_append_right {α : Type} {a b : α} {l t : List α}
    (h : firstBefore a b l) : firstBefore a b (l ++ t) := by
  obtain ⟨l₁, l₂, rfl, ha, hbn, hb⟩ := h
  exact ⟨l₁, l₂ ++ t, by rw [List.append_assoc], ha, hbn, List.mem_append_left _ hb⟩

/-- The stable dedup keeps the relative order of first occurrences. -/
theorem firstBefore_dedupFirst {α : Type} [DecidableEq α] {a b : α} {l : List α}
    (h : firstBefore a b l) : firstBefore a b (dedupFirst l) := by
  obtain ⟨l₁, l₂, rfl, ha, hbn, hb⟩ := h
  rw [dedupFirst, dedupFrom_append]
  refine ⟨dedupFrom [] l₁, dedupFrom (l₁ ++ []) l₂, rfl, ?_, ?_, ?_⟩
  · exact mem_dedupFrom.mpr ⟨ha, by simp⟩
  · intro hmem; exact hbn (mem_dedupFrom.mp hmem).1
  · exact mem_dedupFrom.mpr ⟨hb, by simpa using hbn⟩

/-! ### Splitting membership in a concatenation of segments -/

theorem mem_flatten_split {α : Type} {x : α} {L : List (List α)} (h : x ∈ L.flatten) :
    ∃ L₁ s L₂, L = L₁ ++ s :: L₂ ∧ x ∈ s ∧ x ∉ L₁.flatten := by
  induction L with
  | nil => simp at h
  | cons s L ih =>
    by_cases hs : x ∈ s
    · exact ⟨[], s, L, rfl, hs, by simp⟩
    · have hx : x ∈ L.flatten := by
        rw [List.flatten_cons] at h
        rcases List.mem_append.mp h with h' | h'
        · exact absurd h' hs
        · exact h'
      obtain ⟨L₁, t, L₂, rfl, ht, hn⟩ := ih hx
      refine ⟨s :: L₁, t, L₂, rfl, ht, ?_⟩
      intro hmem
      rw [List.flatten_cons] at hmem
      rcases List.mem_append.mp hmem with h' | h'
      · exact hs h'
      · exact hn h'

/-! ### Association-list and measure lemmas -/

theorem lookup_mem {α β : Type} [BEq α] [LawfulBEq α] {l : List (α × β)} {k : α} {v : β}
    (h : l.lookup k = some v) : (k, v) ∈ l := by
  induction l with
  | nil => simp [List.lookup] at h
  | cons p l ih =>
    obtain ⟨k', v'⟩ := p
    rw [List.lookup] at h
    cases hk : k == k' with
    | true =>
      rw [hk] at h
      simp only [] at h
      have hkk : k = k' := eq_of_beq hk
      subst hkk
      cases h
      exact List.mem_cons_self _ _
    | false =>
      rw [hk] at h
      simp only [] at h
      exact List.mem_cons_of_mem _ (ih h)

/-- Keys of the registry whose full name has not yet been visited; the
recursion's termination measure. -/
def countNotVisited (reg : Registry) (visited : List String) : Nat :=
  ((reg.map Prod.fst).filter (fun k => decide (k ∉ visited))).length

theorem filter_notMem_cons_length_lt {keys v : List String} {fn : String}
    (hmem : fn ∈ keys) (hnv : fn ∉ v) :
    (keys.filter (fun k => decide (k ∉ fn :: v))).length <
      (keys.filter (fun k => decide (k ∉ v))).length := by
  induction keys with
  | nil => cases hmem
  | cons k ks ih =>
    by_cases hk : k = fn
    · subst hk
      rw [List.filter_cons, List.filter_cons]
      have h1 : (decide (k ∉ k :: v)) = false := by simp
      have h2 : (decide (k ∉ v)) = true := by simpa using hnv
      rw [h1, h2]
      have hle : (ks.filter (fun x => decide (x ∉ k :: v))).length ≤
          (ks.filter (fun x => decide (x ∉ v))).length := by
        refine List.Sublist.length_le (List.monotone_filter_right _ ?_)
        intro a ha
        simp only [decide_eq_true_eq] at ha ⊢
        intro hav
        exact ha (List.mem_cons_of_mem _ hav)
      exact Nat.lt_succ_of_le hle
    · have hmem' : fn ∈ ks := by
        rcases List.mem_cons.mp hmem with h | h
        · exact absurd h.symm hk
        · exact h
      rw [List.filter_cons, List.filter_cons]
      by_cases hkv : k ∈ v
      · have h1 : (decide (k ∉ fn :: v)) = false := by
          simp [List.mem_cons, hkv]
        have h2 : (decide (k ∉ v)) = false := by simpa using hkv
        rw [h1, h2]
        exact ih hmem'
      · have h1 : (decide (k ∉ fn :: v)) = true := by
          simp only [decide_eq_true_eq, List.mem_cons]
          rintro (h | h)
          · exact hk h
          · exact hkv h
        have h2 : (decide (k ∉ v)) = true := by simpa using hkv
        rw [h1, h2]
        simpa using Nat.succ_lt_succ (ih hmem')

theorem countNotVisited_cons_lt {reg : Registry} {visited : List String} {fn : String}
    (hmem : fn ∈ reg.map Prod.fst) (hnv : fn ∉ visited) :
    countNotVisited reg (fn :: visited) < countNotVisited reg visited :=
  filter_notMem_cons_length_lt hmem hnv

theorem getDependencies_ne_nil_mem {reg : Registry} {fn : String}
    (h : getDependencies reg fn ≠ []) : fn ∈ reg.map Prod.fst := by
  rw [getDependencies] at h
  cases hl : reg.lookup fn with
  | none => rw [hl] at h; exact absurd rfl h
  | some ds =>
    have := lookup_mem hl
    exact List.mem_map.mpr ⟨(fn, ds), this, rfl⟩

/-! ### Injectivity of the `"layer.name"` encoding

Layer values contain no dot, so the first dot of a full name separates the
layer from the pipeline name unambiguously. -/

theorem value_no_dot (l : PipelineLayer) : '.' ∉ l.value.data := by
  cases l <;> decide

theorem value_injective {l₁ l₂ : PipelineLayer} (h : l₁.value = l₂.value) : l₁ = l₂ := by
  cases l₁ <;> cases l₂ <;> first
    | rfl
    | exact absurd h (by decide)

theorem append_dot_cancel {a₁ b₁ a₂ b₂ : List Char}
    (h₁ : '.' ∉ a₁) (h₂ : '.' ∉ a₂)
    (h : a₁ ++ '.' :: b₁ = a₂ ++ '.' :: b₂) : a₁ = a₂ ∧ b₁ = b₂ := by
  induction a₁ generalizing a₂ with
  | nil =>
    cases a₂ with
    | nil => simpa using h
    | cons c cs =>
      rw [List.nil_append, List.cons_append] at h
      have hc : c = '.' := (List.cons.injEq _ _ _ _ ▸ h).1.symm
      exact absurd (hc ▸ List.mem_cons_self c cs) h₂
  | cons c cs ih =>
    cases a₂ with
    | nil =>
      rw [List.cons_append, List.nil_append] at h
      have hc : c = '.' := (List.cons.injEq _ _ _ _ ▸ h).1
      exact absurd (hc ▸ List.mem_cons_self c cs) h₁
    | cons d ds =>
      rw [List.cons_append, List.cons_append] at h
      have hcd := (List.cons.injEq _ _ _ _ ▸ h).1
      have htl := (List.cons.injEq _ _ _ _ ▸ h).2
      have h₁' : '.' ∉ cs := fun hm => h₁ (List.mem_cons_of_mem _ hm)
      have h₂' : '.' ∉ ds := fun hm => h₂ (List.mem_cons_of_mem _ hm)
      obtain ⟨he, hb⟩ := ih h₁' h₂' htl
      exact ⟨by rw [hcd, he], hb⟩

theorem fullNameOf_injective {l₁ l₂ : PipelineLayer} {n₁ n₂ : String}
    (h : fullNameOf l₁ n₁ = fullNameOf l₂ n₂) : l₁ = l₂ ∧ n₁ = n₂ := by
  have hd : (fullNameOf l₁ n₁).data = (fullNameOf l₂ n₂).data := by rw [h]
  rw [fullNameOf, fullNameOf, String.data_append, String.data_append,
      String.data_append, String.data_append] at hd
  have hdot : ".".data = ['.'] := rfl
  rw [hdot] at hd
  simp only [List.append_assoc, List.cons_append, List.nil_append] at hd
  obtain ⟨hv, hn⟩ := append_dot_cancel (value_no_dot l₁) (value_no_dot l₂) hd
  exact ⟨value_injective (String.ext hv), String.ext hn⟩

theorem mem_of_getLast?_eq_some {α : Type} {l : List α} {a : α}
    (h : l.getLast? = some a) : a ∈ l := by
  induction l with
  | nil => simp at h
  | cons x l ih =>
    cases l with
    | nil =>
      simp only [List.getLast?_singleton, Option.some.injEq] at h
      subst h; exact List.mem_cons_self _ _
    | cons y t =>
      rw [List.getLast?_cons_cons] at h
      exact List.mem_cons_of_mem _ (ih h)

/-! ### Decomposing a successful run of the dependency loop

A successful `resolveList f deps` run decomposes into one `(target, segment)`
pair per processed (dot-containing) dependency string, concatenated in order;
dot-free strings contribute no pair, and every dot-containing dependency that
parses contributes one. -/

theorem resolveList_ok {f : PipelineLayer → String → Except ResolveError (List PipelineId)}
    {deps : List String} {subs : List PipelineId}
    (h : resolveList f deps = Except.ok subs) :
    ∃ pairs : List (PipelineId × List PipelineId),
      subs = (pairs.map Prod.snd).flatten ∧
      (∀ pr ∈ pairs, f pr.1.1 pr.1.2 = Except.ok pr.2 ∧
        ∃ d ∈ deps, parseDep d = some pr.1) ∧
      (∀ d ∈ deps, ∀ q, parseDep d = some q → ∃ pr ∈ pairs, pr.1 = q) := by
  induction deps generalizing subs with
  | nil =>
    rw [resolveList] at h
    cases h
    exact ⟨[], rfl, by simp, by simp⟩
  | cons d rest ih =>
    rw [resolveList] at h
    by_cases hdot : '.' ∈ d.toList
    · rw [if_pos hdot] at h
      cases hly : PipelineLayer.ofString? (splitDot d).1 with
      | none => rw [hly] at h; simp at h
      | some dl =>
        rw [hly] at h
        simp only [] at h
        cases hf : f dl (splitDot d).2 with
        | error e => rw [hf] at h; simp at h
        | ok sub =>
          rw [hf] at h
          simp only [] at h
          cases hr : resolveList f rest with
          | error e => rw [hr] at h; simp at h
          | ok more =>
            rw [hr] at h
            simp only [Except.ok.injEq] at h
            obtain ⟨pairs, hflat, hseg, hcomp⟩ := ih hr
            have hparse : parseDep d = some (dl, (splitDot d).2) := by
              rw [parseDep, if_pos hdot, hly]
            refine ⟨((dl, (splitDot d).2), sub) :: pairs, ?_, ?_, ?_⟩
            · rw [← h, List.map_cons, List.flatten_cons, hflat]
            · intro pr hpr
              rcases List.mem_cons.mp hpr with rfl | hpr
              · exact ⟨hf, d, List.mem_cons_self _ _, hparse⟩
              · obtain ⟨hf', d', hd', hp'⟩ := hseg pr hpr
                exact ⟨hf', d', List.mem_cons_of_mem _ hd', hp'⟩
            · intro d' hd' q hq
              rcases List.mem_cons.mp hd' with rfl | hd'
              · rw [hparse] at hq
                cases hq
                exact ⟨((dl, (splitDot d').2), sub), List.mem_cons_self _ _, rfl⟩
              · obtain ⟨pr, hpr, hpq⟩ := hcomp d' hd' q hq
                exact ⟨pr, List.mem_cons_of_mem _ hpr, hpq⟩
    · rw [if_neg hdot] at h
      obtain ⟨pairs, hflat, hseg, hcomp⟩ := ih h
      refine ⟨pairs, hflat, ?_, ?_⟩
      · intro pr hpr
        obtain ⟨hf', d', hd', hp'⟩ := hseg pr hpr
        exact ⟨hf', d', List.mem_cons_of_mem _ hd', hp'⟩
      · intro d' hd' q hq
        rcases List.mem_cons.mp hd' with rfl | hd'
        · rw [parseDep, if_neg hdot] at hq
          cases hq
        · exact hcomp d' hd' q hq

/-! ### The invariants of a successful resolution -/

/-- What a successful `_resolve_dependencies(layer, name, visited)` call
guarantees about its returned order `out`:
each pipeline occurs at most once; no returned pipeline is on the current
recursion path; the target is the last element; the returned set is closed
under dependency edges and every dependency's first occurrence precedes its
dependent's; and every returned pipeline is reachable from the target. -/
def ResolveInv (reg : Registry) (visited : List String) (p : PipelineId)
    (out : List PipelineId) : Prop :=
  out.Nodup ∧
  (∀ q ∈ out, fullNameOf q.1 q.2 ∉ visited) ∧
  out.getLast? = some p ∧
  (∀ q ∈ out, ∀ r, DepEdge reg q r → r ∈ out ∧ firstBefore r q out) ∧
  (∀ q ∈ out, Reachable reg p q)

theorem resolveDeps_ok_inv (reg : Registry) :
    ∀ (fuel : Nat) (layer : PipelineLayer) (name : String)
      (visited : List String) (out : List PipelineId),
      resolveDeps reg fuel layer name visited = Except.ok out →
      ResolveInv reg visited (layer, name) out := by
  intro fuel
  induction fuel with
  | zero =>
    intro layer name visited out h
    rw [resolveDeps] at h
    simp at h
  | succ fuel ih =>
    intro layer name visited out h
    rw [resolveDeps] at h
    by_cases hvis : fullNameOf layer name ∈ visited
    · rw [if_pos hvis] at h; simp at h
    · rw [if_neg hvis] at h
      cases hrl : resolveList
          (fun dl dn => resolveDeps reg fuel dl dn (fullNameOf layer name :: visited))
          (getDependencies reg (fullNameOf layer name)) with
      | error e => rw [hrl] at h; simp at h
      | ok subs =>
        rw [hrl] at h
        simp only [Except.ok.injEq] at h
        subst h
        obtain ⟨pairs, hflat, hseg, hcomp⟩ := resolveList_ok hrl
        -- each segment satisfies the invariant one level deeper
        have hsegInv : ∀ pr ∈ pairs,
            ResolveInv reg (fullNameOf layer name :: visited) pr.1 pr.2 := by
          intro pr hpr
          obtain ⟨hf, -⟩ := hseg pr hpr
          exact ih pr.1.1 pr.1.2 _ pr.2 hf
        -- membership in subs means membership in some segment
        have hmem_seg : ∀ q ∈ subs, ∃ pr ∈ pairs, q ∈ pr.2 := by
          intro q hq
          rw [hflat] at hq
          rcases List.mem_flatten.mp hq with ⟨s, hs, hqs⟩
          rcases List.mem_map.mp hs with ⟨pr, hpr, rfl⟩
          exact ⟨pr, hpr, hqs⟩
        -- the target is in no segment
        have hnotin : (layer, name) ∉ subs := by
          intro hmem
          obtain ⟨pr, hpr, hq⟩ := hmem_seg _ hmem
          have := (hsegInv pr hpr).2.1 _ hq
          exact this (List.mem_cons_self _ _)
        have hsplit : dedupFirst (subs ++ [(layer, name)]) =
            dedupFirst subs ++ [(layer, name)] := dedupFirst_append_singleton hnotin
        have hmem_out : ∀ q, q ∈ dedupFirst (subs ++ [(layer, name)]) ↔
            q ∈ subs ∨ q = (layer, name) := by
          intro q
          rw [mem_dedupFirst, List.mem_append, List.mem_singleton]
        -- dependency targets of the head are in subs
        have hhead_dep : ∀ r, DepEdge reg (layer, name) r → r ∈ subs := by
          rintro r ⟨d, hd, hp⟩
          obtain ⟨pr, hpr, rfl⟩ := hcomp d hd r hp
          have hlast := (hsegInv pr hpr).2.2.1
          have : pr.1 ∈ pr.2 := mem_of_getLast?_eq_some hlast
          rw [hflat]
          exact List.mem_flatten.mpr ⟨pr.2, List.mem_map.mpr ⟨pr, hpr, rfl⟩, this⟩
        refine ⟨nodup_dedupFirst _, ?_, ?_, ?_, ?_⟩
        · -- freshness
          intro q hq
          rcases (hmem_out q).mp hq with hq | rfl
          · obtain ⟨pr, hpr, hqs⟩ := hmem_seg _ hq
            have := (hsegInv pr hpr).2.1 _ hqs
            exact fun hv => this (List.mem_cons_of_mem _ hv)
          · exact hvis
        · -- target last
          rw [hsplit]
          exact List.getLast?_concat _
        · -- closed and ordered
          intro q hq r hedge
          rcases (hmem_out q).mp hq with hqs | rfl
          · obtain ⟨pr, hpr, hqseg⟩ := hmem_seg _ hqs
            -- locate the first segment containing q
            have hqflat : q ∈ (pairs.map Prod.snd).flatten := by rw [← hflat]; exact hqs
            obtain ⟨L₁, s, L₂, hLsplit, hqs', hqnot⟩ := mem_flatten_split hqflat
            have hs_mem : s ∈ pairs.map Prod.snd := by
              rw [hLsplit]; exact List.mem_append_right _ (List.mem_cons_self _ _)
            rcases List.mem_map.mp hs_mem with ⟨pr', hpr', hpr's⟩
            have hinv' := hsegInv pr' hpr'
            have hseg_closed := hinv'.2.2.2.1 q (hpr's ▸ hqs') r hedge
            have hr_in_s : r ∈ s := hpr's ▸ hseg_closed.1
            have hfb_s : firstBefore r q s := hpr's ▸ hseg_closed.2
            have hsubs_split : subs = L₁.flatten ++ s ++ (L₂.flatten) := by
              rw [hflat, hLsplit, List.flatten_append, List.flatten_cons, List.append_assoc]
            have hr_subs : r ∈ subs := by
              rw [hsubs_split]
              exact List.mem_append_left _ (List.mem_append_right _ hr_in_s)
            constructor
            · exact (hmem_out r).mpr (Or.inl hr_subs)
            · have hraw : firstBefore r q (subs ++ [(layer, name)]) := by
                have : subs ++ [(layer, name)] =
                    L₁.flatten ++ s ++ (L₂.flatten ++ [(layer, name)]) := by
                  rw [hsubs_split, List.append_assoc (L₁.flatten ++ s)]
                rw [this]
                exact firstBefore_of_middle hfb_s hqnot
              exact firstBefore_dedupFirst hraw
          · -- q is the target itself
            have hr_subs : r ∈ subs := hhead_dep r hedge
            constructor
            · exact (hmem_out r).mpr (Or.inl hr_subs)
            · refine firstBefore_dedupFirst ⟨subs, [(layer, name)], rfl, hr_subs, hnotin, ?_⟩
              exact List.mem_singleton.mpr rfl
        · -- reachability
          intro q hq
          rcases (hmem_out q).mp hq with hqs | rfl
          · obtain ⟨pr, hpr, hqseg⟩ := hmem_seg _ hqs
            obtain ⟨-, d, hd, hp⟩ := hseg pr hpr
            have hreach := (hsegInv pr hpr).2.2.2.2 q hqseg
            exact Reachable.head ⟨d, hd, hp⟩ hreach
          · exact Reachable.refl _

/-! ### Error analysis: which errors can a resolution produce? -/

theorem wfDeps_getDependencies {reg : Registry} (hwf : WFDeps reg) (fn : String) :
    ∀ d ∈ getDependencies reg fn, '.' ∈ d.toList →
      (PipelineLayer.ofString? (splitDot d).1).isSome := by
  intro d hd
  rw [getDependencies] at hd
  cases hl : reg.lookup fn with
  | none => rw [hl] at hd; cases hd
  | some ds =>
    rw [hl] at hd
    exact hwf (fn, ds) (lookup_mem hl) d hd

theorem resolveList_no_invalidLayer
    {f : PipelineLayer → String → Except ResolveError (List PipelineId)} {deps : List String}
    (hdeps : ∀ d ∈ deps, '.' ∈ d.toList → (PipelineLayer.ofString? (splitDot d).1).isSome)
    (hf : ∀ dl dn s, f dl dn ≠ Except.error (.invalidLayer s)) :
    ∀ s, resolveList f deps ≠ Except.error (.invalidLayer s) := by
  induction deps with
  | nil => intro s h; rw [resolveList] at h; cases h
  | cons d rest ih =>
    intro s h
    rw [resolveList] at h
    by_cases hdot : '.' ∈ d.toList
    · rw [if_pos hdot] at h
      cases hly : PipelineLayer.ofString? (splitDot d).1 with
      | none =>
        have := hdeps d (List.mem_cons_self _ _) hdot
        rw [hly] at this; cases this
      | some dl =>
        rw [hly] at h
        simp only [] at h
        cases hfv : f dl (splitDot d).2 with
        | error e =>
          rw [hfv] at h
          simp only [Except.error.injEq] at h
          exact hf dl (splitDot d).2 s (by rw [hfv, h])
        | ok sub =>
          rw [hfv] at h
          simp only [] at h
          cases hr : resolveList f rest with
          | error e =>
            rw [hr] at h
            simp only [Except.error.injEq] at h
            exact ih (fun d' hd' => hdeps d' (List.mem_cons_of_mem _ hd')) s (by rw [hr, h])
          | ok more => rw [hr] at h; cases h
    · rw [if_neg hdot] at h
      exact ih (fun d' hd' => hdeps d' (List.mem_cons_of_mem _ hd')) s h

theorem resolveDeps_no_invalidLayer (reg : Registry) (hwf : WFDeps reg) :
    ∀ (fuel : Nat) (layer : PipelineLayer) (name : String) (visited : List String) (s : String),
      resolveDeps reg fuel layer name visited ≠ Except.error (.invalidLayer s) := by
  intro fuel
  induction fuel with
  | zero => intro layer name visited s h; rw [resolveDeps] at h; cases h
  | succ fuel ih =>
    intro layer name visited s h
    rw [resolveDeps] at h
    by_cases hvis : fullNameOf layer name ∈ visited
    · rw [if_pos hvis] at h; cases h
    · rw [if_neg hvis] at h
      cases hrl : resolveList
          (fun dl dn => resolveDeps reg fuel dl dn (fullNameOf layer name :: visited))
          (getDependencies reg (fullNameOf layer name)) with
      | error e =>
        rw [hrl] at h
        simp only [Except.error.injEq] at h
        subst h
        exact resolveList_no_invalidLayer
          (wfDeps_getDependencies hwf _)
          (fun dl dn s' => ih dl dn (fullNameOf layer name :: visited) s') s hrl
      | ok subs => rw [hrl] at h; cases h

theorem resolveList_no_fuel
    {f : PipelineLayer → String → Except ResolveError (List PipelineId)} {deps : List String}
    (hf : ∀ dl dn, f dl dn ≠ Except.error .fuelExhausted) :
    resolveList f deps ≠ Except.error .fuelExhausted := by
  induction deps with
  | nil => intro h; rw [resolveList] at h; cases h
  | cons d rest ih =>
    intro h
    rw [resolveList] at h
    by_cases hdot : '.' ∈ d.toList
    · rw [if_pos hdot] at h
      cases hly : PipelineLayer.ofString? (splitDot d).1 with
      | none => rw [hly] at h; cases h
      | some dl =>
        rw [hly] at h
        simp only [] at h
        cases hfv : f dl (splitDot d).2 with
        | error e =>
          rw [hfv] at h
          simp only [Except.error.injEq] at h
          exact hf dl (splitDot d).2 (by rw [hfv, h])
        | ok sub =>
          rw [hfv] at h
          simp only [] at h
          cases hr : resolveList f rest with
          | error e =>
            rw [hr] at h
            simp only [Except.error.injEq] at h
            exact ih (by rw [hr, h])
          | ok more => rw [hr] at h; cases h
    · rw [if_neg hdot] at h
      exact ih h

theorem resolveDeps_no_fuel (reg : Registry) :
    ∀ (fuel : Nat) (visited : List String), countNotVisited reg visited < fuel →
      ∀ (layer : PipelineLayer) (name : String),
        resolveDeps reg fuel layer name visited ≠ Except.error .fuelExhausted := by
  intro fuel
  induction fuel with
  | zero => intro visited h; omega
  | succ fuel ih =>
    intro visited hlt layer name h
    rw [resolveDeps] at h
    by_cases hvis : fullNameOf layer name ∈ visited
    · rw [if_pos hvis] at h; cases h
    · rw [if_neg hvis] at h
      by_cases hdeps : getDependencies reg (fullNameOf layer name) = []
      · rw [hdeps] at h
        rw [resolveList] at h
        simp only [] at h
        cases h
      · have hkey : fullNameOf layer name ∈ reg.map Prod.fst :=
          getDependencies_ne_nil_mem hdeps
        have hdec : countNotVisited reg (fullNameOf layer name :: visited) < fuel := by
          have := countNotVisited_cons_lt hkey hvis
          omega
        cases hrl : resolveList
            (fun dl dn => resolveDeps reg fuel dl dn (fullNameOf layer name :: visited))
            (getDependencies reg (fullNameOf layer name)) with
        | error e =>
          rw [hrl] at h
          simp only [Except.error.injEq] at h
          subst h
          exact resolveList_no_fuel
            (fun dl dn => ih (fullNameOf layer name :: visited) hdec dl dn) hrl
        | ok subs => rw [hrl] at h; cases h

/-! ### Successful resolution on acyclic well-formed graphs -/

theorem resolveList_ok_of_deps
    {f : PipelineLayer → String → Except ResolveError (List PipelineId)} {deps : List String}
    (hdeps : ∀ d ∈ deps, '.' ∈ d.toList → (PipelineLayer.ofString? (splitDot d).1).isSome)
    (hf : ∀ d ∈ deps, ∀ q, parseDep d = some q → ∃ out, f q.1 q.2 = Except.ok out) :
    ∃ subs, resolveList f deps = Except.ok subs := by
  induction deps with
  | nil => exact ⟨[], rfl⟩
  | cons d rest ih =>
    by_cases hdot : '.' ∈ d.toList
    · obtain ⟨dl, hly⟩ := Option.isSome_iff_exists.mp (hdeps d (List.mem_cons_self _ _) hdot)
      have hparse : parseDep d = some (dl, (splitDot d).2) := by
        rw [parseDep, if_pos hdot, hly]
      obtain ⟨sub, hsub⟩ := hf d (List.mem_cons_self _ _) _ hparse
      obtain ⟨more, hmore⟩ := ih
        (fun d' hd' => hdeps d' (List.mem_cons_of_mem _ hd'))
        (fun d' hd' q hq => hf d' (List.mem_cons_of_mem _ hd') q hq)
      refine ⟨sub ++ more, ?_⟩
      rw [resolveList, if_pos hdot, hly]
      simp only []
      rw [hsub]
      simp only []
      rw [hmore]
    · obtain ⟨subs, hsubs⟩ := ih
        (fun d' hd' => hdeps d' (List.mem_cons_of_mem _ hd'))
        (fun d' hd' q hq => hf d' (List.mem_cons_of_mem _ hd') q hq)
      refine ⟨subs, ?_⟩
      rw [resolveList, if_neg hdot]
      exact hsubs

theorem resolveDeps_ok_of_acyclic (reg : Registry) (hwf : WFDeps reg) (t : PipelineId)
    (hacyc : ∀ q r, Reachable reg t q → DepEdge reg q r → ¬ Reachable reg r q) :
    ∀ (fuel : Nat) (visited : List String) (p : PipelineId),
      countNotVisited reg visited < fuel →
      Reachable reg t p →
      (∀ v ∈ visited, ∃ a : PipelineId, v = fullNameOf a.1 a.2 ∧
        ∃ m, DepEdge reg a m ∧ Reachable reg m p) →
      ∃ out, resolveDeps reg fuel p.1 p.2 visited = Except.ok out := by
  intro fuel
  induction fuel with
  | zero => intro visited p h; omega
  | succ fuel ih =>
    intro visited p hlt hreach hvisited
    have hvis : fullNameOf p.1 p.2 ∉ visited := by
      intro hmem
      obtain ⟨a, ha, m, hedge, hmr⟩ := hvisited _ hmem
      obtain ⟨h1, h2⟩ := fullNameOf_injective ha.symm
      have hap : a = p := Prod.ext h1 h2
      subst hap
      exact hacyc a m hreach hedge hmr
    have hresolve : ∃ subs, resolveList
        (fun dl dn => resolveDeps reg fuel dl dn (fullNameOf p.1 p.2 :: visited))
        (getDependencies reg (fullNameOf p.1 p.2)) = Except.ok subs := by
      refine resolveList_ok_of_deps (wfDeps_getDependencies hwf _) ?_
      intro d hd q hq
      have hedge : DepEdge reg p q := ⟨d, hd, hq⟩
      have hdeps_ne : getDependencies reg (fullNameOf p.1 p.2) ≠ [] := by
        intro hnil; rw [hnil] at hd; cases hd
      have hkey : fullNameOf p.1 p.2 ∈ reg.map Prod.fst :=
        getDependencies_ne_nil_mem hdeps_ne
      have hdec : countNotVisited reg (fullNameOf p.1 p.2 :: visited) < fuel := by
        have := countNotVisited_cons_lt hkey hvis
        omega
      refine ih (fullNameOf p.1 p.2 :: visited) q hdec (hreach.snoc hedge) ?_
      intro v hv
      rcases List.mem_cons.mp hv with rfl | hv
      · exact ⟨p, rfl, q, hedge, Reachable.refl _⟩
      · obtain ⟨a, ha, m, he, hm⟩ := hvisited v hv
        exact ⟨a, ha, m, he, hm.snoc hedge⟩
    obtain ⟨subs, hsubs⟩ := hresolve
    refine ⟨dedupFirst (subs ++ [(p.1, p.2)]), ?_⟩
    rw [resolveDeps, if_neg hvis, hsubs]

/-! ### Reachability versus the returned order -/

theorem reachable_mem_of_closed {reg : Registry} {out : List PipelineId}
    (hclosed : ∀ q ∈ out, ∀ r, DepEdge reg q r → r ∈ out) :
    ∀ {p q : PipelineId}, Reachable reg p q → p ∈ out → q ∈ out := by
  intro p q h
  induction h with
  | refl _ => exact id
  | head e _ ih => intro hp; exact ih (hclosed _ hp _ e)

theorem reachable_firstBefore {reg : Registry} {out : List PipelineId}
    (hclosed : ∀ q ∈ out, ∀ r, DepEdge reg q r → r ∈ out ∧ firstBefore r q out) :
    ∀ {p q : PipelineId}, Reachable reg p q → p ∈ out →
      (q = p ∨ firstBefore q p out) := by
  intro p q h
  induction h with
  | refl _ => intro _; exact Or.inl rfl
  | head e _ ih =>
    intro hp
    obtain ⟨hm, hfb⟩ := hclosed _ hp _ e
    rcases ih hm with rfl | h'
    · exact Or.inr hfb
    · exact Or.inr (firstBefore_trans h' hfb)

/-- A successful resolution is impossible when a cycle is reachable from the
target: the topological-order invariant would contradict itself around the
cycle. -/
theorem resolve_not_ok_of_cycle {reg : Registry} {t : PipelineId} {out : List PipelineId}
    (hinv : ResolveInv reg [] t out)
    {q r : PipelineId} (hq : Reachable reg t q) (he : DepEdge reg q r)
    (hr : Reachable reg r q) : False := by
  obtain ⟨-, -, hlast, hco, -⟩ := hinv
  have ht : t ∈ out := mem_of_getLast?_eq_some hlast
  have hclosed : ∀ q' ∈ out, ∀ r', DepEdge reg q' r' → r' ∈ out :=
    fun q' hq' r' he' => (hco q' hq' r' he').1
  have hqmem : q ∈ out := reachable_mem_of_closed hclosed hq ht
  obtain ⟨hrmem, hfb⟩ := hco q hqmem r he
  rcases reachable_firstBefore hco hr hrmem with rfl | h'
  · exact firstBefore_irrefl hfb
  · exact firstBefore_irrefl (firstBefore_trans h' hfb)

theorem countNotVisited_nil (reg : Registry) : countNotVisited reg [] = reg.length := by
  rw [countNotVisited]
  have : ((reg.map Prod.fst).filter fun k => decide (k ∉ ([] : List String))) =
      reg.map Prod.fst := by
    refine List.filter_eq_self.mpr ?_
    intro a _
    simp
  rw [this, List.length_map]

/-- Acyclicity from a rank function that strictly decreases along dependency
edges (used to discharge the acyclicity hypothesis on concrete registries). -/
theorem rank_le_of_reachable {reg : Registry} (rank : PipelineId → Nat)
    (h : ∀ p q, DepEdge reg p q → rank q < rank p) :
    ∀ {p q : PipelineId}, Reachable reg p q → rank q ≤ rank p := by
  intro p q hr
  induction hr with
  | refl _ => exact Nat.le_refl _
  | head e _ ih => exact Nat.le_trans ih (Nat.le_of_lt (h _ _ e))

theorem acyclic_of_rank {reg : Registry} (t : PipelineId) (rank : PipelineId → Nat)
    (h : ∀ p q, DepEdge reg p q → rank q < rank p) :
    ∀ q r, Reachable reg t q → DepEdge reg q r → ¬ Reachable reg r q := by
  intro q r _ he hrr
  have h1 : rank r < rank q := h _ _ he
  have h2 : rank q ≤ rank r := rank_le_of_reachable rank h hrr
  omega

theorem depEdge_lookup {reg : Registry} {p q : PipelineId} (h : DepEdge reg p q) :
    ∃ ds, reg.lookup (fullNameOf p.1 p.2) = some ds ∧ ∃ d ∈ ds, parseDep d = some q := by
  obtain ⟨d, hd, hp⟩ := h
  rw [getDependencies] at hd
  cases hl : reg.lookup (fullNameOf p.1 p.2) with
  | none => rw [hl] at hd; cases hd
  | some ds => rw [hl] at hd; exact ⟨ds, rfl, d, hd, hp⟩

/-- The spec's two-pipeline scenario: `bronze.geo` with no dependencies and
`silver.geo` depending on `["bronze.geo"]`. -/
def geoReg : Registry := [("bronze.geo", []), ("silver.geo", ["bronze.geo"])]

theorem geoReg_edge {p q : PipelineId} (h : DepEdge geoReg p q) :
    p = (PipelineLayer.silver, "geo") ∧ q = (PipelineLayer.bronze, "geo") := by
  obtain ⟨ds, hl, d, hd, hp⟩ := depEdge_lookup h
  by_cases h1 : fullNameOf p.1 p.2 = "bronze.geo"
  · have hp_eq : p = (PipelineLayer.bronze, "geo") := by
      have : fullNameOf p.1 p.2 = fullNameOf PipelineLayer.bronze "geo" := h1
      obtain ⟨ha, hb⟩ := fullNameOf_injective this
      exact Prod.ext ha hb
    rw [h1] at hl
    have hds : ds = ([] : List String) := by
      rw [geoReg] at hl
      rw [List.lookup] at hl
      have heq : ("bronze.geo" == "bronze.geo") = true := by decide
      rw [heq] at hl
      simp only [Option.some.injEq] at hl
      exact hl.symm
    rw [hds] at hd
    cases hd
  · by_cases h2 : fullNameOf p.1 p.2 = "silver.geo"
    · have hp_eq : p = (PipelineLayer.silver, "geo") := by
        have : fullNameOf p.1 p.2 = fullNameOf PipelineLayer.silver "geo" := h2
        obtain ⟨ha, hb⟩ := fullNameOf_injective this
        exact Prod.ext ha hb
      rw [h2] at hl
      have hds : ds = ["bronze.geo"] := by
        rw [geoReg] at hl
        rw [List.lookup] at hl
        have hne : ("silver.geo" == "bronze.geo") = false := by decide
        rw [hne] at hl
        simp only [] at hl
        rw [List.lookup] at hl
        have heq : ("silver.geo" == "silver.geo") = true := by decide
        rw [heq] at hl
        simp only [Option.some.injEq] at hl
        exact hl.symm
      rw [hds] at hd
      have hdd : d = "bronze.geo" := List.mem_singleton.mp hd
      rw [hdd] at hp
      have : parseDep "bronze.geo" = some (PipelineLayer.bronze, "geo") := by decide
      rw [this] at hp
      cases hp
      exact ⟨hp_eq, rfl⟩
    · exfalso
      rw [geoReg] at hl
      rw [List.lookup] at hl
      have hne1 : (fullNameOf p.1 p.2 == "bronze.geo") = false := by
        simp only [beq_eq_false_iff_ne, ne_eq]
        exact h1
      rw [hne1] at hl
      simp only [] at hl
      rw [List.lookup] at hl
      have hne2 : (fullNameOf p.1 p.2 == "silver.geo") = false := by
        simp only [beq_eq_false_iff_ne, ne_eq]
        exact h2
      rw [hne2] at hl
      simp only [] at hl
      cases hl

theorem geoReg_acyclic :
    ∀ q r, Reachable geoReg (PipelineLayer.silver, "geo") q → DepEdge geoReg q r →
      ¬ Reachable geoReg r q := by
  refine acyclic_of_rank _ (fun p => if p = (PipelineLayer.bronze, "geo") then 0 else 1) ?_
  intro p q h
  obtain ⟨hp, hq⟩ := geoReg_edge h
  subst hp; subst hq
  decide

/-- **C1.** For every dependency graph (with layer-valid dependency strings)
without cycles reachable from the target, `_resolve_dependencies` succeeds and
returns each distinct reachable pipeline exactly once (the stable dedup gives
a duplicate-free list containing exactly the reachable pipelines), every
dependency's first occurrence precedes every pipeline depending on it, and the
target pipeline is the last element.  In particular, with `bronze.geo` having
no dependencies and `silver.geo` depending on `["bronze.geo"]`, resolving
`(silver, geo)` yields `[(bronze, geo), (silver, geo)]`. -/
theorem C1_resolve_topological_order (reg : Registry) (layer : PipelineLayer) (name : String)
    (hwf : WFDeps reg)
    (hacyc : ∀ q r, Reachable reg (layer, name) q → DepEdge reg q r →
      ¬ Reachable reg r q) :
    (∃ out, resolve reg layer name = Except.ok out ∧
      out.Nodup ∧
      (∀ q, q ∈ out ↔ Reachable reg (layer, name) q) ∧
      (∀ q ∈ out, ∀ r, DepEdge reg q r → firstBefore r q out) ∧
      out.getLast? = some (layer, name)) ∧
    resolve geoReg PipelineLayer.silver "geo" =
      Except.ok [(PipelineLayer.bronze, "geo"), (PipelineLayer.silver, "geo")] := by
  constructor
  · obtain ⟨out, hout⟩ := resolveDeps_ok_of_acyclic reg hwf (layer, name) hacyc
      (reg.length + 1) [] (layer, name)
      (by rw [countNotVisited_nil]; omega)
      (Reachable.refl _)
      (by intro v hv; exact absurd hv (List.not_mem_nil v))
    have hinv := resolveDeps_ok_inv reg (reg.length + 1) layer name [] out hout
    obtain ⟨hnd, -, hlast, hco, hreach⟩ := hinv
    refine ⟨out, hout, hnd, ?_, ?_, hlast⟩
    · intro q
      constructor
      · exact hreach q
      · intro h
        exact reachable_mem_of_closed (fun q' hq' r' he' => (hco q' hq' r' he').1) h
          (mem_of_getLast?_eq_some hlast)
    · intro q hq r he
      exact (hco q hq r he).2
  · decide

/-- Witness for C1 at the concrete two-pipeline registry. -/
theorem C1_witness :
    ∃ out, resolve geoReg PipelineLayer.silver "geo" = Except.ok out ∧
      out.getLast? = some (PipelineLayer.silver, "geo") := by
  obtain ⟨⟨out, h1, -, -, -, h5⟩, -⟩ :=
    C1_resolve_topological_order geoReg PipelineLayer.silver "geo"
      (by unfold WFDeps; decide) geoReg_acyclic
  exact ⟨out, h1, h5⟩

/-! ## The executor: `PipelineExecutor` (`app/core/pipeline_executor.py`)

Wall-clock timestamps (`started_at`, `completed_at`, `duration_seconds`) are
not modeled; `uuid.uuid4()` run-id generation is modeled by the caller
supplying a counter-derived id.  The in-memory `execution_history` map is not
modeled (no claim concerns it). -/

/-- `PipelineStatus` from `app/core/models.py`. -/
inductive PipelineStatus
  | pending
  | running
  | success
  | failed
deriving DecidableEq, Repr

/-- `TaskStatus` from `app/core/job_manager.py`. -/
inductive TaskStatus
  | pending
  | running
  | success
  | failed
  | cancelled
deriving DecidableEq, Repr

/-- `JobStatus` from `app/core/job_manager.py` (`partialDone` stands for the
`PARTIAL = "partial"` member). -/
inductive JobStatus
  | pending
  | running
  | success
  | failed
  | partialDone
  | cancelled
deriving DecidableEq, Repr

/-- The dict a runnable's `run(force)` returns, as read by the executor:
`result.get("status", "success")`, `result.get("message", "")`,
`result.get("error")`. -/
structure RunResult where
  status? : Option String
  message : String
  error? : Option String
deriving DecidableEq, Repr

/-- Behavior of `pipeline_class()` instantiation plus `pipeline.run(force)`:
either an exception with message `msg`, or a returned result dict. -/
inductive RunBehavior
  | raises (msg : String)
  | returns (r : RunResult)

/-- Terminal snapshot of a `PipelineExecutionState`. -/
structure ExecState where
  runId : String
  pipelineName : String
  layer : PipelineLayer
  status : PipelineStatus
  error? : Option String
  result? : Option RunResult
deriving DecidableEq, Repr

/-- A `Task` record as the executor fills it in. -/
structure TaskRec where
  taskId : String
  pipelineName : String
  layer : String
  status : TaskStatus
  message : String
  error? : Option String
  stats? : Option RunResult
deriving DecidableEq, Repr

/-- Calls the executor makes into the `JobManager` (in order). -/
inductive JMEvent
  | addTask (jobId : String) (t : TaskRec)
  | updateTask (jobId : String) (t : TaskRec)
  | createJob (jobName : String) (totalTasks : Nat) (userId : Option String)
  | updateJobProgress (jobId : String) (status? : Option JobStatus)
      (totalTasks? completedTasks? failedTasks? : Option Nat) (setCompletedAt : Bool)
deriving DecidableEq, Repr

/-- The executor's collaborators: the registry's dependency map, the
per-layer registration-ordered pipeline list (`_pipelines` dict iteration
order) and `registry.get` combined with each runnable's behavior. -/
structure ExecEnv where
  reg : Registry
  pipelines : List (PipelineLayer × String)
  runnable? : PipelineLayer → String → Option (Bool → RunBehavior)

/-- The `f"Pipeline {layer.value}.{name} not found"` error message. -/
def notFoundError (layer : PipelineLayer) (name : String) : String :=
  "Pipeline " ++ layer.value ++ "." ++ name ++ " not found"

/-- The `Task` created at the start of `execute_pipeline` when a job id is
given. -/
def initialTask (runId name : String) (layer : PipelineLayer) : TaskRec :=
  { taskId := runId, pipelineName := name, layer := layer.value,
    status := .pending, message := "", error? := none, stats? := none }

/-- `PipelineExecutor.execute_pipeline(layer, name, force, run_id, job_id)`.
Returns the terminal execution state, the ordered `JobManager` calls, and the
list of runnables actually invoked (`pipeline.run` calls).  The source wraps
instantiation and `run` in `try/except`, so a raising runnable produces a
`failed` state instead of propagating. -/
def execute_pipeline (env : ExecEnv) (layer : PipelineLayer) (name : String)
    (force : Bool) (runId : String) (jobId? : Option String) :
    ExecState × List JMEvent × List PipelineId :=
  let task := initialTask runId name layer
  let ev0 : List JMEvent := match jobId? with
    | some j => [JMEvent.addTask j task]
    | none => []
  match env.runnable? layer name with
  | none =>
    ({ runId := runId
       pipelineName := name
       layer := layer
       status := .failed
       error? := some (notFoundError layer name)
       result? := none },
     ev0 ++ (match jobId? with
       | some j => [JMEvent.updateTask j
           { task with
             status := .failed
             error? := some (notFoundError layer name) }]
       | none => []),
     [])
  | some run =>
    let ev1 : List JMEvent := match jobId? with
      | some j => [JMEvent.updateTask j { task with status := .running }]
      | none => []
    match run force with
    | .raises msg =>
      ({ runId := runId
         pipelineName := name
         layer := layer
         status := .failed
         error? := some msg
         result? := none },
       ev0 ++ ev1 ++ (match jobId? with
         | some j => [JMEvent.updateTask j
             { task with
               status := .failed
               error? := some msg }]
         | none => []),
       [(layer, name)])
    | .returns r =>
      let rs := r.status?.getD "success"
      let pstatus := if rs = "failed" then PipelineStatus.failed
        else if rs = "partial" then PipelineStatus.failed
        else PipelineStatus.success
      let tstatus := if rs = "failed" then TaskStatus.failed
        else if rs = "partial" then TaskStatus.failed
        else TaskStatus.success
      ({ runId := runId
         pipelineName := name
         layer := layer
         status := pstatus
         error? := none
         result? := some r },
       ev0 ++ ev1 ++ (match jobId? with
         | some j => [JMEvent.updateTask j
             { task with
               status := tstatus
               message := r.message
               error? := if rs = "failed" then r.error? else none
               stats? := some r }]
         | none => []),
       [(layer, name)])

/-- The status `execute_pipeline` would assign to a pipeline; it depends only
on the registry lookup and the runnable's behavior under `force`. -/
def pipeStatus (env : ExecEnv) (force : Bool) (p : PipelineId) : PipelineStatus :=
  (execute_pipeline env p.1 p.2 force "" none).1.status

/-- The sequential fail-fast loop of `execute_with_dependencies`: execute in
order, append each state, stop right after the first `failed` state. -/
def runOrder (env : ExecEnv) (force : Bool) (jobId? : Option String) :
    List PipelineId → Nat → List ExecState × List JMEvent × List PipelineId
  | [], _ => ([], [], [])
  | p :: rest, ctr =>
    let r := execute_pipeline env p.1 p.2 force (toString ctr) jobId?
    if r.1.status = PipelineStatus.failed then ([r.1], r.2.1, r.2.2)
    else
      let rr := runOrder env force jobId? rest (ctr + 1)
      (r.1 :: rr.1, r.2.1 ++ rr.2.1, r.2.2 ++ rr.2.2)

/-- `PipelineExecutor.execute_with_dependencies(layer, name, force, job_id)`:
resolve first (re-raising a resolution `ValueError`), then run the order
sequentially with fail-fast.  On a resolution error nothing is executed and
no `JobManager` call is made. -/
def executeWithDependencies (env : ExecEnv) (layer : PipelineLayer) (name : String)
    (force : Bool) (jobId? : Option String) (ctr : Nat) :
    Except ResolveError (List ExecState) × List JMEvent × List PipelineId :=
  match resolve env.reg layer name with
  | .error e => (.error e, [], [])
  | .ok order =>
    let r := runOrder env force jobId? order ctr
    (.ok r.1, r.2.1, r.2.2)

/-- The fail-fast truncation of an execution order: everything up to and
including the first pipeline whose execution would fail. -/
def failFastTake (env : ExecEnv) (force : Bool) : List PipelineId → List PipelineId
  | [] => []
  | p :: rest =>
    if pipeStatus env force p = PipelineStatus.failed then [p]
    else p :: failFastTake env force rest

/-- Which task a `JobManager` call is about, if any. -/
def JMEvent.taskName? : JMEvent → Option (String × String)
  | .addTask _ t => some (t.layer, t.pipelineName)
  | .updateTask _ t => some (t.layer, t.pipelineName)
  | .createJob _ _ _ => none
  | .updateJobProgress _ _ _ _ _ _ => none

theorem execute_pipeline_status (env : ExecEnv) (layer : PipelineLayer) (name : String)
    (force : Bool) (runId : String) (jobId? : Option String) :
    (execute_pipeline env layer name force runId jobId?).1.status =
      pipeStatus env force (layer, name) := by
  show (execute_pipeline env layer name force runId jobId?).1.status =
    (execute_pipeline env layer name force "" none).1.status
  cases hrun : env.runnable? layer name with
  | none => simp only [execute_pipeline, hrun]
  | some run =>
    cases hrb : run force with
    | raises msg => simp only [execute_pipeline, hrun, hrb]
    | returns r => simp only [execute_pipeline, hrun, hrb]

theorem execute_pipeline_name (env : ExecEnv) (layer : PipelineLayer) (name : String)
    (force : Bool) (runId : String) (jobId? : Option String) :
    (execute_pipeline env layer name force runId jobId?).1.pipelineName = name ∧
    (execute_pipeline env layer name force runId jobId?).1.layer = layer := by
  cases hrun : env.runnable? layer name with
  | none => simp [execute_pipeline, hrun]
  | some run =>
    cases hrb : run force with
    | raises msg => simp [execute_pipeline, hrun, hrb]
    | returns r => simp [execute_pipeline, hrun, hrb]

theorem execute_pipeline_terminal (env : ExecEnv) (layer : PipelineLayer) (name : String)
    (force : Bool) (runId : String) (jobId? : Option String) :
    (execute_pipeline env layer name force runId jobId?).1.status = PipelineStatus.success ∨
    (execute_pipeline env layer name force runId jobId?).1.status = PipelineStatus.failed := by
  cases hrun : env.runnable? layer name with
  | none => simp [execute_pipeline, hrun]
  | some run =>
    cases hrb : run force with
    | raises msg => simp [execute_pipeline, hrun, hrb]
    | returns r =>
      simp only [execute_pipeline, hrun, hrb]
      by_cases h1 : r.status?.getD "success" = "failed"
      · right; simp [h1]
      · by_cases h2 : r.status?.getD "success" = "partial"
        · right; simp [h1, h2]
        · left; simp [h1, h2]

theorem execute_pipeline_events_name (env : ExecEnv) (layer : PipelineLayer) (name : String)
    (force : Bool) (runId : String) (jobId? : Option String) :
    ∀ ev ∈ (execute_pipeline env layer name force runId jobId?).2.1,
      ev.taskName? = some (layer.value, name) := by
  intro ev hev
  cases hrun : env.runnable? layer name with
  | none =>
    simp only [execute_pipeline, hrun] at hev
    cases jobId? with
    | none => simp at hev
    | some j =>
      simp only [List.cons_append, List.nil_append, List.mem_cons] at hev
      rcases hev with rfl | rfl | hev
      · rfl
      · rfl
      · simp at hev
  | some run =>
    cases hrb : run force with
    | raises msg =>
      simp only [execute_pipeline, hrun, hrb] at hev
      cases jobId? with
      | none => simp at hev
      | some j =>
        simp only [List.cons_append, List.nil_append, List.append_assoc,
          List.mem_cons] at hev
        rcases hev with rfl | rfl | rfl | hev
        · rfl
        · rfl
        · rfl
        · simp at hev
    | returns r =>
      simp only [execute_pipeline, hrun, hrb] at hev
      cases jobId? with
      | none => simp at hev
      | some j =>
        simp only [List.cons_append, List.nil_append, List.append_assoc,
          List.mem_cons] at hev
        rcases hev with rfl | rfl | rfl | hev
        · rfl
        · rfl
        · rfl
        · simp at hev

theorem execute_pipeline_invoked (env : ExecEnv) (layer : PipelineLayer) (name : String)
    (force : Bool) (runId : String) (jobId? : Option String) :
    ∀ p ∈ (execute_pipeline env layer name force runId jobId?).2.2, p = (layer, name) := by
  intro p hp
  cases hrun : env.runnable? layer name with
  | none => simp only [execute_pipeline, hrun] at hp; simp at hp
  | some run =>
    cases hrb : run force with
    | raises msg => simp only [execute_pipeline, hrun, hrb] at hp; simpa using hp
    | returns r => simp only [execute_pipeline, hrun, hrb] at hp; simpa using hp

theorem getLast?_cons_of_ne_nil {α : Type} {l : List α} (x : α) (h : l ≠ []) :
    (x :: l).getLast? = l.getLast? := by
  cases l with
  | nil => exact absurd rfl h
  | cons y t => rw [List.getLast?_cons_cons]

theorem failFastTake_append_rest (env : ExecEnv) (force : Bool) :
    ∀ l : List PipelineId, ∃ rest, l = failFastTake env force l ++ rest := by
  intro l
  induction l with
  | nil => exact ⟨[], rfl⟩
  | cons p rest ih =>
    by_cases h : pipeStatus env force p = PipelineStatus.failed
    · exact ⟨rest, by rw [failFastTake, if_pos h]; rfl⟩
    · obtain ⟨r', hr'⟩ := ih
      refine ⟨r', ?_⟩
      rw [failFastTake, if_neg h, List.cons_append, ← hr']

theorem failFastTake_dropLast (env : ExecEnv) (force : Bool) :
    ∀ l : List PipelineId, ∀ p ∈ (failFastTake env force l).dropLast,
      pipeStatus env force p ≠ PipelineStatus.failed := by
  intro l
  induction l with
  | nil => intro p hp; rw [failFastTake] at hp; simp at hp
  | cons q rest ih =>
    intro p hp
    rw [failFastTake] at hp
    by_cases h : pipeStatus env force q = PipelineStatus.failed
    · rw [if_pos h] at hp; simp at hp
    · rw [if_neg h] at hp
      cases hft : failFastTake env force rest with
      | nil => rw [hft] at hp; simp at hp
      | cons a t =>
        rw [hft, List.dropLast_cons₂, List.mem_cons] at hp
        rcases hp with rfl | hp
        · exact h
        · exact ih p (by rw [hft]; exact hp)

theorem runOrder_spec (env : ExecEnv) (force : Bool) (jobId? : Option String) :
    ∀ (l : List PipelineId) (ctr : Nat),
      List.Forall₂ (fun (s : ExecState) (p : PipelineId) =>
          s.pipelineName = p.2 ∧ s.layer = p.1 ∧ s.status = pipeStatus env force p)
        (runOrder env force jobId? l ctr).1 (failFastTake env force l) ∧
      (∀ p ∈ (runOrder env force jobId? l ctr).2.2, p ∈ failFastTake env force l) ∧
      (∀ ev ∈ (runOrder env force jobId? l ctr).2.1, ∀ x, JMEvent.taskName? ev = some x →
        ∃ p ∈ failFastTake env force l, x = (p.1.value, p.2)) ∧
      ((∃ p ∈ l, pipeStatus env force p = PipelineStatus.failed) →
        ∃ s, (runOrder env force jobId? l ctr).1.getLast? = some s ∧
          s.status = PipelineStatus.failed) ∧
      ((∀ p ∈ l, pipeStatus env force p ≠ PipelineStatus.failed) →
        (runOrder env force jobId? l ctr).1.length = l.length) := by
  intro l
  induction l with
  | nil =>
    intro ctr
    refine ⟨List.Forall₂.nil, ?_, ?_, ?_, ?_⟩
    · intro p hp; rw [runOrder] at hp; simp at hp
    · intro ev hev; rw [runOrder] at hev; simp at hev
    · rintro ⟨p, hp, -⟩; simp at hp
    · intro _; rfl
  | cons p rest ih =>
    intro ctr
    have hstat : (execute_pipeline env p.1 p.2 force (toString ctr) jobId?).1.status =
        pipeStatus env force p := execute_pipeline_status env p.1 p.2 force _ jobId?
    have hnm := execute_pipeline_name env p.1 p.2 force (toString ctr) jobId?
    by_cases hfail : pipeStatus env force p = PipelineStatus.failed
    · have hcond : (execute_pipeline env p.1 p.2 force (toString ctr) jobId?).1.status =
          PipelineStatus.failed := by rw [hstat]; exact hfail
      rw [runOrder]
      simp only [if_pos hcond]
      rw [failFastTake]
      simp only [if_pos hfail]
      refine ⟨?_, ?_, ?_, ?_, ?_⟩
      · exact List.Forall₂.cons ⟨hnm.1, hnm.2, by rw [hstat]⟩ List.Forall₂.nil
      · intro q hq
        have := execute_pipeline_invoked env p.1 p.2 force (toString ctr) jobId? q hq
        rw [this]
        exact List.mem_singleton.mpr rfl
      · intro ev hev x hx
        have := execute_pipeline_events_name env p.1 p.2 force (toString ctr) jobId? ev hev
        rw [this] at hx
        cases hx
        exact ⟨p, List.mem_singleton.mpr rfl, rfl⟩
      · intro _
        exact ⟨(execute_pipeline env p.1 p.2 force (toString ctr) jobId?).1, rfl, hcond⟩
      · intro hall
        exact absurd hfail (hall p (List.mem_cons_self _ _))
    · have hcond : ¬ (execute_pipeline env p.1 p.2 force (toString ctr) jobId?).1.status =
          PipelineStatus.failed := by rw [hstat]; exact hfail
      rw [runOrder]
      simp only [if_neg hcond]
      rw [failFastTake]
      simp only [if_neg hfail]
      obtain ⟨ihF, ihInv, ihEv, ihLast, ihLen⟩ := ih (ctr + 1)
      refine ⟨?_, ?_, ?_, ?_, ?_⟩
      · exact List.Forall₂.cons ⟨hnm.1, hnm.2, by rw [hstat]⟩ ihF
      · intro q hq
        rcases List.mem_append.mp hq with hq | hq
        · have := execute_pipeline_invoked env p.1 p.2 force (toString ctr) jobId? q hq
          rw [this]
          exact List.mem_cons_self _ _
        · exact List.mem_cons_of_mem _ (ihInv q hq)
      · intro ev hev x hx
        rcases List.mem_append.mp hev with hev | hev
        · have := execute_pipeline_events_name env p.1 p.2 force (toString ctr) jobId? ev hev
          rw [this] at hx
          cases hx
          exact ⟨p, List.mem_cons_self _ _, rfl⟩
        · obtain ⟨q, hq, hx'⟩ := ihEv ev hev x hx
          exact ⟨q, List.mem_cons_of_mem _ hq, hx'⟩
      · rintro ⟨q, hq, hqf⟩
        rcases List.mem_cons.mp hq with rfl | hq
        · exact absurd hqf hfail
        · obtain ⟨s, hs, hsf⟩ := ihLast ⟨q, hq, hqf⟩
          refine ⟨s, ?_, hsf⟩
          have hne : (runOrder env force jobId? rest (ctr + 1)).1 ≠ [] := by
            intro hnil
            rw [hnil] at hs
            simp at hs
          rw [getLast?_cons_of_ne_nil _ hne]
          exact hs
      · intro hall
        simp only [List.length_cons]
        rw [ihLen (fun q hq => hall q (List.mem_cons_of_mem _ hq))]

/-- **C3.** `execute_with_dependencies` runs the resolved pipelines strictly
sequentially and fail-fast: the returned states correspond one-to-one with
the prefix of the resolved order up to and including the first failing
pipeline; every state before the last is non-failed; when some pipeline in
the order fails, the returned list's last entry is a failed state; when none
fails, every pipeline in the order gets a state; no pipeline after the first
failure is invoked and no task record is created or updated for it. -/
theorem C3_execute_with_dependencies_fail_fast (env : ExecEnv) (layer : PipelineLayer)
    (name : String) (force : Bool) (jobId? : Option String) (ctr : Nat)
    (order : List PipelineId)
    (hres : resolve env.reg layer name = Except.ok order) :
    ∃ states events invoked,
      executeWithDependencies env layer name force jobId? ctr =
        (Except.ok states, events, invoked) ∧
      (∃ rest, order = failFastTake env force order ++ rest) ∧
      List.Forall₂ (fun (s : ExecState) (p : PipelineId) =>
          s.pipelineName = p.2 ∧ s.layer = p.1 ∧ s.status = pipeStatus env force p)
        states (failFastTake env force order) ∧
      (∀ p ∈ (failFastTake env force order).dropLast,
        pipeStatus env force p ≠ PipelineStatus.failed) ∧
      ((∃ p ∈ order, pipeStatus env force p = PipelineStatus.failed) →
        ∃ s, states.getLast? = some s ∧ s.status = PipelineStatus.failed) ∧
      ((∀ p ∈ order, pipeStatus env force p ≠ PipelineStatus.failed) →
        states.length = order.length) ∧
      (∀ p ∈ invoked, p ∈ failFastTake env force order) ∧
      (∀ ev ∈ events, ∀ x, JMEvent.taskName? ev = some x →
        ∃ p ∈ failFastTake env force order, x = (p.1.value, p.2)) := by
  obtain ⟨hF, hInv, hEv, hLast, hLen⟩ := runOrder_spec env force jobId? order ctr
  refine ⟨(runOrder env force jobId? order ctr).1,
    (runOrder env force jobId? order ctr).2.1,
    (runOrder env force jobId? order ctr).2.2, ?_, failFastTake_append_rest env force order,
    hF, failFastTake_dropLast env force order, hLast, hLen, hInv, hEv⟩
  rw [executeWithDependencies, hres]

/-- A behavior that always returns a plain success result. -/
def okBehavior : Bool → RunBehavior :=
  fun _ => RunBehavior.returns { status? := some "success", message := "", error? := none }

/-- Concrete environment over the two-pipeline scenario registry. -/
def geoEnv : ExecEnv :=
  { reg := geoReg
    pipelines := [(PipelineLayer.bronze, "geo"), (PipelineLayer.silver, "geo")]
    runnable? := fun _ _ => some okBehavior }

/-- Witness for C3: a concrete all-success dependency chain is executed in
full. -/
theorem C3_witness :
    ∃ states events invoked,
      executeWithDependencies geoEnv PipelineLayer.silver "geo" false none 0 =
        (Except.ok states, events, invoked) ∧
      states.length = 2 := by
  obtain ⟨states, events, invoked, heq, -, -, -, -, hLen, -, -⟩ :=
    C3_execute_with_dependencies_fail_fast geoEnv PipelineLayer.silver "geo" false none 0
      [(PipelineLayer.bronze, "geo"), (PipelineLayer.silver, "geo")] (by decide)
  refine ⟨states, events, invoked, heq, ?_⟩
  rw [hLen (by decide)]
  rfl

/-- The diamond registry: `silver.a` depends on `bronze.b` and `bronze.c`,
both of which depend on `bronze.d`. -/
def diamondReg : Registry :=
  [("silver.a", ["bronze.b", "bronze.c"]), ("bronze.b", ["bronze.d"]),
   ("bronze.c", ["bronze.d"]), ("bronze.d", [])]

/-- **C2.** For every dependency graph (with layer-valid dependency strings)
containing a cycle reachable from the target, resolution fails with the
circular-dependency `ValueError` naming the offending pipeline, and
`execute_with_dependencies` then re-raises it before executing anything: it
returns no execution state, makes no `JobManager` call, and invokes no
runnable.  The `visited` set is a path-scoped copy per recursive call, so a
diamond dependency (`silver.a` over `bronze.b`/`bronze.c`, both over
`bronze.d`) resolves without a cycle error. -/
theorem C2_cycle_circular_error (env : ExecEnv) (layer : PipelineLayer) (name : String)
    (hwf : WFDeps env.reg)
    (hcyc : ∃ q r, Reachable env.reg (layer, name) q ∧ DepEdge env.reg q r ∧
      Reachable env.reg r q) :
    (∃ c, resolve env.reg layer name = Except.error (ResolveError.circular c) ∧
      ∀ force jobId? ctr,
        executeWithDependencies env layer name force jobId? ctr =
          (Except.error (ResolveError.circular c), [], [])) ∧
    resolve diamondReg PipelineLayer.silver "a" =
      Except.ok [(PipelineLayer.bronze, "d"), (PipelineLayer.bronze, "b"),
        (PipelineLayer.bronze, "c"), (PipelineLayer.silver, "a")] := by
  constructor
  · obtain ⟨q, r, hq, he, hr⟩ := hcyc
    cases hres : resolve env.reg layer name with
    | ok out =>
      exfalso
      exact resolve_not_ok_of_cycle
        (resolveDeps_ok_inv env.reg (env.reg.length + 1) layer name [] out hres) hq he hr
    | error e =>
      cases e with
      | circular c =>
        refine ⟨c, rfl, ?_⟩
        intro force jobId? ctr
        rw [executeWithDependencies, hres]
      | invalidLayer s =>
        exact absurd hres (resolveDeps_no_invalidLayer env.reg hwf _ layer name [] s)
      | fuelExhausted =>
        exact absurd hres (resolveDeps_no_fuel env.reg _ []
          (by rw [countNotVisited_nil]; omega) layer name)
  · decide

/-- The spec's two-pipeline cycle scenario: `silver.x` and `silver.y`
depending on each other. -/
def cycleReg : Registry := [("silver.x", ["silver.y"]), ("silver.y", ["silver.x"])]

/-- Environment over the cyclic registry. -/
def cycleEnv : ExecEnv :=
  { reg := cycleReg
    pipelines := []
    runnable? := fun _ _ => none }

/-- Witness for C2 at the concrete cyclic registry. -/
theorem C2_witness :
    ∃ c, resolve cycleEnv.reg PipelineLayer.silver "x" =
        Except.error (ResolveError.circular c) ∧
      executeWithDependencies cycleEnv PipelineLayer.silver "x" false none 0 =
        (Except.error (ResolveError.circular c), [], []) := by
  obtain ⟨⟨c, h1, h2⟩, -⟩ := C2_cycle_circular_error cycleEnv PipelineLayer.silver "x"
    (by unfold WFDeps; decide)
    ⟨(PipelineLayer.silver, "x"), (PipelineLayer.silver, "y"), Reachable.refl _,
      ⟨"silver.y", by decide, by decide⟩,
      Reachable.head ⟨"silver.x", by decide, by decide⟩ (Reachable.refl _)⟩
  exact ⟨c, h1, h2 false none 0⟩

/-- The task update written in the normal-return branch of
`execute_pipeline`. -/
def returnsTask (runId name : String) (layer : PipelineLayer) (r : RunResult) : TaskRec :=
  { initialTask runId name layer with
    status := if r.status?.getD "success" = "failed" then TaskStatus.failed
      else if r.status?.getD "success" = "partial" then TaskStatus.failed
      else TaskStatus.success
    message := r.message
    error? := if r.status?.getD "success" = "failed" then r.error? else none
    stats? := some r }

/-- **C4.** `execute_pipeline` never raises: every case of the embedding
returns a state (the source wraps runnable instantiation and `run` in
`try/except`, modeled as `RunBehavior.raises`).  An unregistered pipeline
yields a `failed` state carrying the "not found" error and, with a job id, a
matching failed task update, without invoking anything; an exception from the
runnable is caught, stored as the state's error, and the state is marked
`failed`; a result status `"partial"` maps to a failed state and failed task
status exactly like `"failed"`; any other result status maps to `success`. -/
theorem C4_execute_pipeline_never_raises (env : ExecEnv) (layer : PipelineLayer)
    (name : String) (force : Bool) (runId : String) (j : String) :
    (env.runnable? layer name = none →
      ∀ jobId?,
        (execute_pipeline env layer name force runId jobId?).1.status =
          PipelineStatus.failed ∧
        (execute_pipeline env layer name force runId jobId?).1.error? =
          some (notFoundError layer name) ∧
        (execute_pipeline env layer name force runId jobId?).2.2 = [] ∧
        (execute_pipeline env layer name force runId (some j)).2.1 =
          [JMEvent.addTask j (initialTask runId name layer),
           JMEvent.updateTask j { initialTask runId name layer with
             status := TaskStatus.failed
             error? := some (notFoundError layer name) }]) ∧
    (∀ run msg, env.runnable? layer name = some run →
      run force = RunBehavior.raises msg →
      ∀ jobId?,
        (execute_pipeline env layer name force runId jobId?).1.status =
          PipelineStatus.failed ∧
        (execute_pipeline env layer name force runId jobId?).1.error? = some msg ∧
        (execute_pipeline env layer name force runId (some j)).2.1.getLast? =
          some (JMEvent.updateTask j { initialTask runId name layer with
            status := TaskStatus.failed
            error? := some msg })) ∧
    (∀ run r, env.runnable? layer name = some run →
      run force = RunBehavior.returns r →
      ∀ jobId?,
        ((r.status?.getD "success" = "failed" ∨ r.status?.getD "success" = "partial") →
          (execute_pipeline env layer name force runId jobId?).1.status =
            PipelineStatus.failed ∧
          ∃ t, (execute_pipeline env layer name force runId (some j)).2.1.getLast? =
            some (JMEvent.updateTask j t) ∧ t.status = TaskStatus.failed) ∧
        (r.status?.getD "success" ≠ "failed" → r.status?.getD "success" ≠ "partial" →
          (execute_pipeline env layer name force runId jobId?).1.status =
            PipelineStatus.success ∧
          ∃ t, (execute_pipeline env layer name force runId (some j)).2.1.getLast? =
            some (JMEvent.updateTask j t) ∧ t.status = TaskStatus.success)) := by
  refine ⟨?_, ?_, ?_⟩
  · intro hrun jobId?
    refine ⟨?_, ?_, ?_, ?_⟩ <;> simp [execute_pipeline, hrun]
  · intro run msg hrun hrb jobId?
    refine ⟨?_, ?_, ?_⟩ <;> simp [execute_pipeline, hrun, hrb]
  · intro run r hrun hrb jobId?
    constructor
    · rintro (hs | hs)
      · constructor
        · simp [execute_pipeline, hrun, hrb, hs]
        · refine ⟨returnsTask runId name layer r, ?_, ?_⟩
          · simp [execute_pipeline, hrun, hrb, returnsTask]
          · simp [returnsTask, hs]
      · constructor
        · simp [execute_pipeline, hrun, hrb, hs]
        · refine ⟨returnsTask runId name layer r, ?_, ?_⟩
          · simp [execute_pipeline, hrun, hrb, returnsTask]
          · simp [returnsTask, hs]
    · intro h1 h2
      constructor
      · simp [execute_pipeline, hrun, hrb, h1, h2]
      · refine ⟨returnsTask runId name layer r, ?_, ?_⟩
        · simp [execute_pipeline, hrun, hrb, returnsTask]
        · simp [returnsTask, h1, h2]

/-- Environment with no registered runnables. -/
def emptyEnv : ExecEnv :=
  { reg := []
    pipelines := []
    runnable? := fun _ _ => none }

/-- Witness for C4: looking up an unregistered pipeline produces a failed
state and failed task without throwing. -/
theorem C4_witness :
    (execute_pipeline emptyEnv PipelineLayer.bronze "geo" false "r1" (some "j1")).1.status =
      PipelineStatus.failed ∧
    (execute_pipeline emptyEnv PipelineLayer.bronze "geo" false "r1" (some "j1")).1.error? =
      some (notFoundError PipelineLayer.bronze "geo") := by
  obtain ⟨h1, h2, -, -⟩ :=
    (C4_execute_pipeline_never_raises emptyEnv PipelineLayer.bronze "geo" false "r1" "j1").1
      rfl (some "j1")
  exact ⟨h1, h2⟩

/-! ## `execute_full_pipeline` -/

/-- `registry.list_pipelines(layer)` names, in registration order. -/
def listNames (env : ExecEnv) (layer : PipelineLayer) : List String :=
  (env.pipelines.filter (fun p => decide (p.1 = layer))).map Prod.snd

/-- Result of one layer loop of `execute_full_pipeline`. -/
structure LayerRun where
  states : List ExecState
  completed : Nat
  failedCount : Nat
  events : List JMEvent
  invoked : List PipelineId
deriving Repr

/-- One `for pipeline_info in ...` loop of `execute_full_pipeline`: execute
each pipeline of the layer in registration order, count successes and
failures, update job progress after every pipeline, break on first failure. -/
def runLayerLoop (env : ExecEnv) (layer : PipelineLayer) (force : Bool) (jobId : String) :
    List String → Nat → Nat → Nat → LayerRun
  | [], completed, failedCount, _ =>
    { states := [], completed := completed, failedCount := failedCount,
      events := [], invoked := [] }
  | nm :: rest, completed, failedCount, ctr =>
    let r := execute_pipeline env layer nm force (toString ctr) (some jobId)
    let completed' := if r.1.status = PipelineStatus.success then completed + 1 else completed
    let failed' := if r.1.status = PipelineStatus.failed then failedCount + 1 else failedCount
    let progEv := JMEvent.updateJobProgress jobId none none (some completed') (some failed') false
    if r.1.status = PipelineStatus.failed then
      { states := [r.1], completed := completed', failedCount := failed',
        events := r.2.1 ++ [progEv], invoked := r.2.2 }
    else
      let rr := runLayerLoop env layer force jobId rest completed' failed' (ctr + 1)
      { states := r.1 :: rr.states, completed := rr.completed,
        failedCount := rr.failedCount, events := r.2.1 ++ progEv :: rr.events,
        invoked := r.2.2 ++ rr.invoked }

/-- The job name chosen at the top of `execute_full_pipeline`. -/
def fullJobName (bronzeOnly silverOnly : Bool) : String :=
  if bronzeOnly then "Full Pipeline - Bronze Only"
  else if silverOnly then "Full Pipeline - Silver Only"
  else "Full Pipeline - Bronze → Silver"

/-- The bronze phase of `execute_full_pipeline`: skipped under
`silver_only`, otherwise the bronze loop from zero counters. -/
def bronzeRun (env : ExecEnv) (silverOnly force : Bool) (jobId : String) (ctr : Nat) :
    LayerRun :=
  if silverOnly then
    { states := [], completed := 0, failedCount := 0, events := [], invoked := [] }
  else runLayerLoop env PipelineLayer.bronze force jobId
    (listNames env PipelineLayer.bronze) 0 0 ctr

/-- The silver phase of `execute_full_pipeline`: runs only when
`bronze_only` is false and the bronze phase had zero failures, continuing the
counters. -/
def silverRun (env : ExecEnv) (bronzeOnly force : Bool) (jobId : String) (ctr : Nat)
    (b : LayerRun) : LayerRun :=
  if bronzeOnly = false ∧ b.failedCount = 0 then
    runLayerLoop env PipelineLayer.silver force jobId
      (listNames env PipelineLayer.silver) b.completed b.failedCount (ctr + b.states.length)
  else
    { states := [], completed := b.completed, failedCount := b.failedCount,
      events := [], invoked := [] }

/-- `PipelineExecutor.execute_full_pipeline(bronze_only, silver_only, force,
user_id)`.  The generated job id is supplied by the caller (modeling
`uuid.uuid4()`); returns `(job_id, states)` plus the ordered `JobManager`
calls and the invoked runnables. -/
def executeFullPipeline (env : ExecEnv) (bronzeOnly silverOnly force : Bool)
    (userId : Option String) (jobId : String) (ctr : Nat) :
    String × List ExecState × List JMEvent × List PipelineId :=
  let totalTasks :=
    (if silverOnly then 0 else (listNames env PipelineLayer.bronze).length) +
    (if bronzeOnly then 0 else (listNames env PipelineLayer.silver).length)
  let hdr : List JMEvent :=
    [JMEvent.createJob (fullJobName bronzeOnly silverOnly) totalTasks userId,
     JMEvent.updateJobProgress jobId (some JobStatus.running) none none none false]
  let b := bronzeRun env silverOnly force jobId ctr
  let s := silverRun env bronzeOnly force jobId ctr b
  let finalStatus := if s.failedCount > 0 then JobStatus.failed else JobStatus.success
  (jobId, b.states ++ s.states,
    hdr ++ b.events ++ s.events ++
      [JMEvent.updateJobProgress jobId (some finalStatus) none none none true],
    b.invoked ++ s.invoked)

/-- Is this `JobManager` call the `create_job` call? -/
def isCreateJob : JMEvent → Bool
  | .createJob _ _ _ => true
  | _ => false

/-- Is this `JobManager` call one of the per-pipeline
`update_job_progress(job_id, completed_tasks=..., failed_tasks=...)` calls? -/
def isProgressUpdate : JMEvent → Bool
  | .updateJobProgress _ none none (some _) (some _) false => true
  | _ => false

/-- Number of states with a given status. -/
def countStatus (sts : List ExecState) (st : PipelineStatus) : Nat :=
  (sts.filter (fun s => decide (s.status = st))).length

/-- The exact sequence of per-pipeline progress updates the loops make,
with the running counters. -/
def expectedProgress (jobId : String) : Nat → Nat → List ExecState → List JMEvent
  | _, _, [] => []
  | c, f, s :: rest =>
    let c' := if s.status = PipelineStatus.success then c + 1 else c
    let f' := if s.status = PipelineStatus.failed then f + 1 else f
    JMEvent.updateJobProgress jobId none none (some c') (some f') false ::
      expectedProgress jobId c' f' rest

theorem countStatus_nil (st : PipelineStatus) : countStatus [] st = 0 := rfl

theorem countStatus_cons (s : ExecState) (sts : List ExecState) (st : PipelineStatus) :
    countStatus (s :: sts) st =
      (if s.status = st then 1 else 0) + countStatus sts st := by
  rw [countStatus, countStatus, List.filter_cons]
  by_cases h : s.status = st
  · simp [h, Nat.add_comm]
  · simp [h]

theorem countStatus_append (l₁ l₂ : List ExecState) (st : PipelineStatus) :
    countStatus (l₁ ++ l₂) st = countStatus l₁ st + countStatus l₂ st := by
  rw [countStatus, countStatus, countStatus, List.filter_append, List.length_append]

theorem expectedProgress_append (j : String) :
    ∀ (l₁ l₂ : List ExecState) (c f : Nat),
      expectedProgress j c f (l₁ ++ l₂) =
        expectedProgress j c f l₁ ++
          expectedProgress j (c + countStatus l₁ PipelineStatus.success)
            (f + countStatus l₁ PipelineStatus.failed) l₂ := by
  intro l₁
  induction l₁ with
  | nil => intro l₂ c f; simp [expectedProgress, countStatus_nil]
  | cons s rest ih =>
    intro l₂ c f
    rw [List.cons_append]
    simp only [expectedProgress]
    rw [ih, countStatus_cons, countStatus_cons]
    cases hstat : s.status <;> simp [hstat, Nat.add_assoc]

theorem execute_pipeline_events_kinds (env : ExecEnv) (layer : PipelineLayer) (name : String)
    (force : Bool) (runId : String) (jobId? : Option String) :
    ∀ ev ∈ (execute_pipeline env layer name force runId jobId?).2.1,
      isCreateJob ev = false ∧ isProgressUpdate ev = false := by
  intro ev hev
  have hname := execute_pipeline_events_name env layer name force runId jobId? ev hev
  cases ev with
  | addTask j t => exact ⟨rfl, rfl⟩
  | updateTask j t => exact ⟨rfl, rfl⟩
  | createJob a b c => rw [JMEvent.taskName?] at hname; cases hname
  | updateJobProgress a b c d e f => rw [JMEvent.taskName?] at hname; cases hname

/-- What one layer loop guarantees: states match the fail-fast prefix of the
layer's registration order; the returned counters extend the incoming ones by
the number of success/failed states; the progress updates are exactly one per
executed pipeline, carrying the running counters; no `create_job` call is
made; only pipelines of this layer are invoked. -/
def LayerRunSpec (env : ExecEnv) (layer : PipelineLayer) (force : Bool) (jobId : String)
    (names : List String) (completed failedCount : Nat) (rr : LayerRun) : Prop :=
  List.Forall₂ (fun (s : ExecState) (p : PipelineId) =>
      s.pipelineName = p.2 ∧ s.layer = p.1 ∧ s.status = pipeStatus env force p)
    rr.states (failFastTake env force (names.map (fun nm => (layer, nm)))) ∧
  rr.completed = completed + countStatus rr.states PipelineStatus.success ∧
  rr.failedCount = failedCount + countStatus rr.states PipelineStatus.failed ∧
  rr.events.filter isProgressUpdate = expectedProgress jobId completed failedCount rr.states ∧
  (∀ ev ∈ rr.events, isCreateJob ev = false) ∧
  (∀ p ∈ rr.invoked, p.1 = layer ∧ p.2 ∈ names)

theorem runLayerLoop_spec (env : ExecEnv) (layer : PipelineLayer) (force : Bool)
    (jobId : String) :
    ∀ (names : List String) (completed failedCount ctr : Nat),
      LayerRunSpec env layer force jobId names completed failedCount
        (runLayerLoop env layer force jobId names completed failedCount ctr) := by
  intro names
  induction names with
  | nil =>
    intro completed failedCount ctr
    rw [runLayerLoop, LayerRunSpec]
    refine ⟨?_, ?_, ?_, ?_, ?_, ?_⟩
    · exact List.Forall₂.nil
    · simp [countStatus_nil]
    · simp [countStatus_nil]
    · rfl
    · intro ev hev; simp at hev
    · intro p hp; simp at hp
  | cons nm rest ih =>
    intro completed failedCount ctr
    have hstat := execute_pipeline_status env layer nm force (toString ctr) (some jobId)
    have hnm := execute_pipeline_name env layer nm force (toString ctr) (some jobId)
    have hkinds := execute_pipeline_events_kinds env layer nm force (toString ctr) (some jobId)
    have hinvoked := execute_pipeline_invoked env layer nm force (toString ctr) (some jobId)
    rw [LayerRunSpec]
    simp only [runLayerLoop, List.map_cons]
    rw [failFastTake]
    by_cases hfail : pipeStatus env force (layer, nm) = PipelineStatus.failed
    · have hcond : (execute_pipeline env layer nm force (toString ctr) (some jobId)).1.status =
          PipelineStatus.failed := by rw [hstat]; exact hfail
      rw [if_pos hcond, if_pos hfail]
      refine ⟨?_, ?_, ?_, ?_, ?_, ?_⟩
      · exact List.Forall₂.cons ⟨hnm.1, hnm.2, by rw [hstat]⟩ List.Forall₂.nil
      · dsimp only
        rw [countStatus_cons, countStatus_nil, hcond]
        simp
      · dsimp only
        rw [countStatus_cons, countStatus_nil, hcond]
        simp
      · dsimp only
        rw [List.filter_append]
        have h1 : (execute_pipeline env layer nm force (toString ctr)
            (some jobId)).2.1.filter isProgressUpdate = [] := by
          rw [List.filter_eq_nil_iff]
          intro ev hev
          rw [(hkinds ev hev).2]
          exact Bool.false_ne_true
        rw [h1]
        rw [List.nil_append]
        simp [expectedProgress, hcond, isProgressUpdate]
      · intro ev hev
        rcases List.mem_append.mp hev with hev | hev
        · exact (hkinds ev hev).1
        · rcases List.mem_singleton.mp hev with rfl
          rfl
      · intro p hp
        dsimp only at hp
        have := hinvoked p hp
        rw [this]
        exact ⟨rfl, List.mem_cons_self _ _⟩
    · have hcond : ¬ (execute_pipeline env layer nm force (toString ctr)
          (some jobId)).1.status = PipelineStatus.failed := by
        rw [hstat]; exact hfail
      have hsucc : (execute_pipeline env layer nm force (toString ctr)
          (some jobId)).1.status = PipelineStatus.success := by
        rcases execute_pipeline_terminal env layer nm force (toString ctr) (some jobId) with
          h | h
        · exact h
        · exact absurd h hcond
      have hc' : (if (execute_pipeline env layer nm force (toString ctr)
            (some jobId)).1.status = PipelineStatus.success then completed + 1
          else completed) = completed + 1 := by rw [hsucc]; simp
      have hf' : (if (execute_pipeline env layer nm force (toString ctr)
            (some jobId)).1.status = PipelineStatus.failed then failedCount + 1
          else failedCount) = failedCount := by rw [if_neg hcond]
      rw [if_neg hcond, if_neg hfail, hc', hf']
      obtain ⟨ihF, ihC, ihFc, ihProg, ihCreate, ihInv⟩ := ih (completed + 1) failedCount (ctr + 1)
      have h1 : (execute_pipeline env layer nm force (toString ctr)
          (some jobId)).2.1.filter isProgressUpdate = [] := by
        rw [List.filter_eq_nil_iff]
        intro ev hev
        rw [(hkinds ev hev).2]
        exact Bool.false_ne_true
      refine ⟨?_, ?_, ?_, ?_, ?_, ?_⟩
      · exact List.Forall₂.cons ⟨hnm.1, hnm.2, by rw [hstat]⟩ ihF
      · dsimp only
        rw [ihC, countStatus_cons, hsucc]
        simp
        omega
      · dsimp only
        rw [ihFc, countStatus_cons, hsucc]
        simp
      · dsimp only
        rw [List.filter_append, h1, List.nil_append, List.filter_cons]
        simp only [expectedProgress, hsucc, ihProg]
        simp [isProgressUpdate]
      · intro ev hev
        dsimp only at hev
        rcases List.mem_append.mp hev with hev | hev
        · exact (hkinds ev hev).1
        · rcases List.mem_cons.mp hev with rfl | hev
          · rfl
          · exact ihCreate ev hev
      · intro p hp
        dsimp only at hp
        rcases List.mem_append.mp hp with hp | hp
        · have := hinvoked p hp
          rw [this]
          exact ⟨rfl, List.mem_cons_self _ _⟩
        · obtain ⟨hx1, hx2⟩ := ihInv p hp
          exact ⟨hx1, List.mem_cons_of_mem _ hx2⟩

theorem bronzeRun_false (env : ExecEnv) (force : Bool) (jobId : String) (ctr : Nat) :
    bronzeRun env false force jobId ctr =
      runLayerLoop env PipelineLayer.bronze force jobId
        (listNames env PipelineLayer.bronze) 0 0 ctr := by
  rw [bronzeRun]
  simp

theorem bronzeRun_true (env : ExecEnv) (force : Bool) (jobId : String) (ctr : Nat) :
    bronzeRun env true force jobId ctr =
      { states := [], completed := 0, failedCount := 0, events := [], invoked := [] } := by
  rw [bronzeRun]
  simp

theorem silverRun_go (env : ExecEnv) (force : Bool) (jobId : String) (ctr : Nat)
    (b : LayerRun) (h : b.failedCount = 0) :
    silverRun env false force jobId ctr b =
      runLayerLoop env PipelineLayer.silver force jobId
        (listNames env PipelineLayer.silver) b.completed b.failedCount
        (ctr + b.states.length) := by
  rw [silverRun]
  simp [h]

theorem silverRun_skip (env : ExecEnv) (bronzeOnly force : Bool) (jobId : String) (ctr : Nat)
    (b : LayerRun) (h : bronzeOnly = true ∨ b.failedCount ≠ 0) :
    silverRun env bronzeOnly force jobId ctr b =
      { states := [], completed := b.completed, failedCount := b.failedCount,
        events := [], invoked := [] } := by
  rw [silverRun, if_neg]
  rintro ⟨h1, h2⟩
  rcases h with h | h
  · rw [h] at h1; cases h1
  · exact h h2

theorem filter_createJob_assembled (jobName : String) (tt : Nat) (userId : Option String)
    (jobId : String) (evB evS : List JMEvent) (finalStatus : JobStatus)
    (hB : ∀ ev ∈ evB, isCreateJob ev = false)
    (hS : ∀ ev ∈ evS, isCreateJob ev = false) :
    (([JMEvent.createJob jobName tt userId,
       JMEvent.updateJobProgress jobId (some JobStatus.running) none none none false] ++
      evB ++ evS ++
      [JMEvent.updateJobProgress jobId (some finalStatus) none none none true]).filter
        isCreateJob) = [JMEvent.createJob jobName tt userId] := by
  have hBnil : evB.filter isCreateJob = [] :=
    List.filter_eq_nil_iff.mpr (fun ev hev => by rw [hB ev hev]; exact Bool.false_ne_true)
  have hSnil : evS.filter isCreateJob = [] :=
    List.filter_eq_nil_iff.mpr (fun ev hev => by rw [hS ev hev]; exact Bool.false_ne_true)
  rw [List.filter_append, List.filter_append, List.filter_append, hBnil, hSnil]
  simp [isCreateJob]

theorem filter_progress_assembled (jobName : String) (tt : Nat) (userId : Option String)
    (jobId : String) (evB evS : List JMEvent) (finalStatus : JobStatus)
    (stsB stsS : List ExecState) (cB fB : Nat)
    (hB : evB.filter isProgressUpdate = expectedProgress jobId 0 0 stsB)
    (hS : evS.filter isProgressUpdate = expectedProgress jobId cB fB stsS)
    (hc : cB = countStatus stsB PipelineStatus.success)
    (hf : fB = countStatus stsB PipelineStatus.failed) :
    (([JMEvent.createJob jobName tt userId,
       JMEvent.updateJobProgress jobId (some JobStatus.running) none none none false] ++
      evB ++ evS ++
      [JMEvent.updateJobProgress jobId (some finalStatus) none none none true]).filter
        isProgressUpdate) = expectedProgress jobId 0 0 (stsB ++ stsS) := by
  rw [expectedProgress_append]
  rw [List.filter_append, List.filter_append, List.filter_append]
  rw [hB, hS]
  have h1 : ([JMEvent.createJob jobName tt userId,
      JMEvent.updateJobProgress jobId (some JobStatus.running) none none none false]).filter
        isProgressUpdate = [] := rfl
  have h2 : ([JMEvent.updateJobProgress jobId (some finalStatus) none none none true]).filter
      isProgressUpdate = [] := rfl
  rw [h1, h2, List.nil_append, List.append_nil, hc, hf]
  rw [Nat.zero_add, Nat.zero_add]

theorem getLast_assembled (hdr2 : List JMEvent) (evB evS : List JMEvent) (fin : JMEvent) :
    (hdr2 ++ evB ++ evS ++ [fin]).getLast? = some fin :=
  List.getLast?_concat _

theorem executeFullPipeline_jobId (env : ExecEnv) (bronzeOnly silverOnly force : Bool)
    (userId : Option String) (jobId : String) (ctr : Nat) :
    (executeFullPipeline env bronzeOnly silverOnly force userId jobId ctr).1 = jobId := rfl

theorem executeFullPipeline_states (env : ExecEnv) (bronzeOnly silverOnly force : Bool)
    (userId : Option String) (jobId : String) (ctr : Nat) :
    (executeFullPipeline env bronzeOnly silverOnly force userId jobId ctr).2.1 =
      (bronzeRun env silverOnly force jobId ctr).states ++
        (silverRun env bronzeOnly force jobId ctr
          (bronzeRun env silverOnly force jobId ctr)).states := rfl

theorem executeFullPipeline_events (env : ExecEnv) (bronzeOnly silverOnly force : Bool)
    (userId : Option String) (jobId : String) (ctr : Nat) :
    (executeFullPipeline env bronzeOnly silverOnly force userId jobId ctr).2.2.1 =
      [JMEvent.createJob (fullJobName bronzeOnly silverOnly)
        ((if silverOnly then 0 else (listNames env PipelineLayer.bronze).length) +
         (if bronzeOnly then 0 else (listNames env PipelineLayer.silver).length)) userId,
       JMEvent.updateJobProgress jobId (some JobStatus.running) none none none false] ++
      (bronzeRun env silverOnly force jobId ctr).events ++
      (silverRun env bronzeOnly force jobId ctr
        (bronzeRun env silverOnly force jobId ctr)).events ++
      [JMEvent.updateJobProgress jobId
        (some (if (silverRun env bronzeOnly force jobId ctr
              (bronzeRun env silverOnly force jobId ctr)).failedCount > 0
          then JobStatus.failed else JobStatus.success)) none none none true] := rfl

/-- **C5.** `execute_full_pipeline` makes exactly one `create_job` call,
whose `total_tasks` is the count of registered bronze pipelines (unless
`silver_only`) plus the count of registered silver pipelines (unless
`bronze_only`); the bronze phase executes the registered bronze pipelines in
registration order with fail-fast; the silver phase runs only when
`bronze_only` is false and the bronze phase counted zero failures (also in
registration order, fail-fast); one
`update_job_progress(completed_tasks=…, failed_tasks=…)` call follows every
executed pipeline, carrying the running counters; the last `JobManager` call
marks the job `failed` when any task failed and `success` otherwise. -/
theorem C5_execute_full_pipeline (env : ExecEnv) (bronzeOnly silverOnly force : Bool)
    (userId : Option String) (jobId : String) (ctr : Nat) :
    (executeFullPipeline env bronzeOnly silverOnly force userId jobId ctr).1 = jobId ∧
    (executeFullPipeline env bronzeOnly silverOnly force userId jobId ctr).2.2.1.filter
        isCreateJob =
      [JMEvent.createJob (fullJobName bronzeOnly silverOnly)
        ((if silverOnly then 0 else (listNames env PipelineLayer.bronze).length) +
         (if bronzeOnly then 0 else (listNames env PipelineLayer.silver).length)) userId] ∧
    (silverOnly = false →
      List.Forall₂ (fun (s : ExecState) (p : PipelineId) =>
          s.pipelineName = p.2 ∧ s.layer = p.1 ∧ s.status = pipeStatus env force p)
        (bronzeRun env silverOnly force jobId ctr).states
        (failFastTake env force
          ((listNames env PipelineLayer.bronze).map
            (fun nm => (PipelineLayer.bronze, nm))))) ∧
    (silverOnly = true → (bronzeRun env silverOnly force jobId ctr).states = []) ∧
    (bronzeOnly = false →
      (bronzeRun env silverOnly force jobId ctr).failedCount = 0 →
      List.Forall₂ (fun (s : ExecState) (p : PipelineId) =>
          s.pipelineName = p.2 ∧ s.layer = p.1 ∧ s.status = pipeStatus env force p)
        (silverRun env bronzeOnly force jobId ctr
          (bronzeRun env silverOnly force jobId ctr)).states
        (failFastTake env force
          ((listNames env PipelineLayer.silver).map
            (fun nm => (PipelineLayer.silver, nm))))) ∧
    ((bronzeOnly = true ∨ (bronzeRun env silverOnly force jobId ctr).failedCount ≠ 0) →
      (silverRun env bronzeOnly force jobId ctr
        (bronzeRun env silverOnly force jobId ctr)).states = []) ∧
    (bronzeRun env silverOnly force jobId ctr).failedCount =
      countStatus (bronzeRun env silverOnly force jobId ctr).states PipelineStatus.failed ∧
    (executeFullPipeline env bronzeOnly silverOnly force userId jobId ctr).2.2.1.filter
        isProgressUpdate =
      expectedProgress jobId 0 0
        (executeFullPipeline env bronzeOnly silverOnly force userId jobId ctr).2.1 ∧
    (executeFullPipeline env bronzeOnly silverOnly force userId jobId ctr).2.2.1.getLast? =
      some (JMEvent.updateJobProgress jobId
        (some (if countStatus
            (executeFullPipeline env bronzeOnly silverOnly force userId jobId ctr).2.1
            PipelineStatus.failed > 0
          then JobStatus.failed else JobStatus.success)) none none none true) := by
  have hB : (bronzeRun env silverOnly force jobId ctr).events.filter isProgressUpdate =
        expectedProgress jobId 0 0 (bronzeRun env silverOnly force jobId ctr).states ∧
      (∀ ev ∈ (bronzeRun env silverOnly force jobId ctr).events, isCreateJob ev = false) ∧
      (bronzeRun env silverOnly force jobId ctr).completed =
        countStatus (bronzeRun env silverOnly force jobId ctr).states
          PipelineStatus.success ∧
      (bronzeRun env silverOnly force jobId ctr).failedCount =
        countStatus (bronzeRun env silverOnly force jobId ctr).states
          PipelineStatus.failed := by
    cases silverOnly with
    | false =>
      rw [bronzeRun_false]
      obtain ⟨-, hc, hf, hprog, hcj, -⟩ := runLayerLoop_spec env PipelineLayer.bronze force
        jobId (listNames env PipelineLayer.bronze) 0 0 ctr
      exact ⟨hprog, hcj, hc.trans (Nat.zero_add _), hf.trans (Nat.zero_add _)⟩
    | true =>
      rw [bronzeRun_true]
      refine ⟨rfl, ?_, rfl, rfl⟩
      intro ev hev
      simp at hev
  have hS : (silverRun env bronzeOnly force jobId ctr
        (bronzeRun env silverOnly force jobId ctr)).events.filter isProgressUpdate =
        expectedProgress jobId (bronzeRun env silverOnly force jobId ctr).completed
          (bronzeRun env silverOnly force jobId ctr).failedCount
          (silverRun env bronzeOnly force jobId ctr
            (bronzeRun env silverOnly force jobId ctr)).states ∧
      (∀ ev ∈ (silverRun env bronzeOnly force jobId ctr
        (bronzeRun env silverOnly force jobId ctr)).events, isCreateJob ev = false) ∧
      (silverRun env bronzeOnly force jobId ctr
          (bronzeRun env silverOnly force jobId ctr)).failedCount =
        (bronzeRun env silverOnly force jobId ctr).failedCount +
          countStatus (silverRun env bronzeOnly force jobId ctr
            (bronzeRun env silverOnly force jobId ctr)).states PipelineStatus.failed := by
    by_cases hcond : bronzeOnly = false ∧
        (bronzeRun env silverOnly force jobId ctr).failedCount = 0
    · obtain ⟨h1, h2⟩ := hcond
      rw [h1, silverRun_go env force jobId ctr _ h2]
      obtain ⟨-, hc, hf, hprog, hcj, -⟩ := runLayerLoop_spec env PipelineLayer.silver force
        jobId (listNames env PipelineLayer.silver)
        (bronzeRun env silverOnly force jobId ctr).completed
        (bronzeRun env silverOnly force jobId ctr).failedCount
        (ctr + (bronzeRun env silverOnly force jobId ctr).states.length)
      exact ⟨hprog, hcj, hf⟩
    · have hor : bronzeOnly = true ∨
          (bronzeRun env silverOnly force jobId ctr).failedCount ≠ 0 := by
        cases hbo : bronzeOnly with
        | true => exact Or.inl rfl
        | false =>
          right
          intro hz
          exact hcond ⟨hbo, hz⟩
      rw [silverRun_skip env bronzeOnly force jobId ctr _ hor]
      refine ⟨rfl, ?_, by simp [countStatus_nil]⟩
      intro ev hev
      simp at hev
  obtain ⟨hBprog, hBcj, hBc, hBf⟩ := hB
  obtain ⟨hSprog, hScj, hSf⟩ := hS
  refine ⟨rfl, ?_, ?_, ?_, ?_, ?_, hBf, ?_, ?_⟩
  · rw [executeFullPipeline_events]
    exact filter_createJob_assembled _ _ _ _ _ _ _ hBcj hScj
  · intro h
    rw [h, bronzeRun_false]
    exact (runLayerLoop_spec env PipelineLayer.bronze force jobId
      (listNames env PipelineLayer.bronze) 0 0 ctr).1
  · intro h
    rw [h, bronzeRun_true]
  · intro h1 h2
    rw [h1, silverRun_go env force jobId ctr _ h2]
    exact (runLayerLoop_spec env PipelineLayer.silver force jobId
      (listNames env PipelineLayer.silver)
      (bronzeRun env silverOnly force jobId ctr).completed
      (bronzeRun env silverOnly force jobId ctr).failedCount
      (ctr + (bronzeRun env silverOnly force jobId ctr).states.length)).1
  · intro h
    rw [silverRun_skip env bronzeOnly force jobId ctr _ h]
  · rw [executeFullPipeline_events, executeFullPipeline_states]
    exact filter_progress_assembled _ _ _ _ _ _ _ _ _ _ _ hBprog hSprog hBc hBf
  · rw [executeFullPipeline_events, executeFullPipeline_states, getLast_assembled]
    have hfc : (silverRun env bronzeOnly force jobId ctr
          (bronzeRun env silverOnly force jobId ctr)).failedCount =
        countStatus ((bronzeRun env silverOnly force jobId ctr).states ++
          (silverRun env bronzeOnly force jobId ctr
            (bronzeRun env silverOnly force jobId ctr)).states) PipelineStatus.failed := by
      rw [countStatus_append, hSf, hBf]
    rw [hfc]

/-- Witness for C5: a concrete full run over the two-pipeline registry
creates one job with two tasks. -/
theorem C5_witness :
    (executeFullPipeline geoEnv false false false none "job1" 0).1 = "job1" ∧
    (executeFullPipeline geoEnv false false false none "job1" 0).2.2.1.filter isCreateJob =
      [JMEvent.createJob (fullJobName false false) 2 none] := by
  obtain ⟨h1, h2, -, -, -, -, -, -, -⟩ :=
    C5_execute_full_pipeline geoEnv false false false none "job1" 0
  refine ⟨h1, ?_⟩
  rw [h2]
  rfl

/-! ## Checkpoint store: `CheckpointManager` (`app/utils/checkpoint.py`)

The delta table is modeled as a list of rows; the outcome of
`delta_ops.read_delta` is an `Except` (a raised exception or the rows).  The
`processed_at` timestamp column is wall clock and not modeled. -/

/-- One checkpoint row. -/
structure CheckpointEntry where
  pipeline_name : String
  file_path : String
  file_hash : String
  status : String
  rows_processed : Nat
deriving DecidableEq, Repr

/-- `CheckpointManager.get_processed_files(pipeline_name)`: filter the table
by `pipeline_name` and `status == "success"` and collect the `file_path`
column; any read exception is caught (the `except` block) and yields the
empty set. -/
def get_processed_files (readRes : Except String (List CheckpointEntry))
    (pipeline_name : String) : List String :=
  match readRes with
  | Except.error _ => []
  | Except.ok df =>
    (df.filter (fun e => e.pipeline_name == pipeline_name && e.status == "success")).map
      (fun e => e.file_path)

/-- `CheckpointManager.get_new_files(pipeline_name, all_files)`:
`[f for f in all_files if f not in processed]`. -/
def get_new_files (readRes : Except String (List CheckpointEntry))
    (pipeline_name : String) (all_files : List String) : List String :=
  all_files.filter (fun f => !(get_processed_files readRes pipeline_name).contains f)

/-- `CheckpointManager.mark_file_processed(...)`: appends one row
(`write_delta(..., mode="append")`). -/
def mark_file_processed (table : List CheckpointEntry)
    (pipeline_name file_path file_hash : String) (rows_processed : Nat)
    (status : String) : List CheckpointEntry :=
  table ++ [{ pipeline_name := pipeline_name, file_path := file_path,
              file_hash := file_hash, status := status,
              rows_processed := rows_processed }]

/-- `CheckpointManager.clear_checkpoints(pipeline_name)`: read the table,
keep only the other pipelines' rows, overwrite.  The body is wrapped in
`try/except Exception: logger.error(...)`, so a persistence failure is
caught and logged and the method returns normally without writing
(`Except.ok none`); a successful run returns the overwritten table. -/
def clear_checkpoints (readRes : Except String (List CheckpointEntry))
    (pipeline_name : String) : Except String (Option (List CheckpointEntry)) :=
  match readRes with
  | Except.ok df =>
    Except.ok (some (df.filter (fun e => !(e.pipeline_name == pipeline_name))))
  | Except.error _ => Except.ok none

/-- The dummy row `_ensure_checkpoint_table` writes to establish the schema
when the table does not exist yet. -/
def initRow : CheckpointEntry :=
  { pipeline_name := "_init", file_path := "_init", file_hash := "_init",
    status := "_init", rows_processed := 0 }

/-- A path is recorded as successfully processed for a pipeline. -/
def RecordedSuccess (table : List CheckpointEntry) (p f : String) : Prop :=
  ∃ e ∈ table, e.pipeline_name = p ∧ e.status = "success" ∧ e.file_path = f

instance (table : List CheckpointEntry) (p f : String) :
    Decidable (RecordedSuccess table p f) := by
  rw [RecordedSuccess]
  infer_instance

theorem mem_get_processed_files {table : List CheckpointEntry} {p f : String} :
    f ∈ get_processed_files (Except.ok table) p ↔ RecordedSuccess table p f := by
  rw [get_processed_files]
  simp only [List.mem_map, List.mem_filter, RecordedSuccess]
  constructor
  · rintro ⟨e, ⟨he, hcond⟩, rfl⟩
    rw [Bool.and_eq_true, beq_iff_eq, beq_iff_eq] at hcond
    exact ⟨e, he, hcond.1, hcond.2, rfl⟩
  · rintro ⟨e, he, h1, h2, rfl⟩
    refine ⟨e, ⟨he, ?_⟩, rfl⟩
    rw [Bool.and_eq_true, beq_iff_eq, beq_iff_eq]
    exact ⟨h1, h2⟩

/-- **C6.** `get_new_files` returns exactly the sublist of the candidates,
in input order, whose paths are not recorded with `status = "success"` for
that pipeline: it equals the filter of the candidates by the absence of a
success record, it is a sublist of the input (order preserved), it keeps any
file lacking a success record for this pipeline (entries with other
statuses or for other pipelines do not remove it), and after marking `a`
processed with success on a fresh table, `get_new_files(p, [a, b, c])`
returns `[b, c]`. -/
theorem C6_get_new_files (table : List CheckpointEntry) (p : String)
    (files : List String) :
    get_new_files (Except.ok table) p files =
      files.filter (fun f => decide (¬ RecordedSuccess table p f)) ∧
    List.Sublist (get_new_files (Except.ok table) p files) files ∧
    (∀ f ∈ files, ¬ RecordedSuccess table p f →
      f ∈ get_new_files (Except.ok table) p files) ∧
    (∀ fh rows, get_new_files
        (Except.ok (mark_file_processed [] p "a" fh rows "success")) p ["a", "b", "c"] =
      ["b", "c"]) := by
  have hchar : ∀ (t : List CheckpointEntry) (fs : List String),
      get_new_files (Except.ok t) p fs =
        fs.filter (fun f => decide (¬ RecordedSuccess t p f)) := by
    intro t fs
    rw [get_new_files]
    refine List.filter_congr ?_
    intro f _
    by_cases h : RecordedSuccess t p f
    · have hc : (get_processed_files (Except.ok t) p).contains f = true := by
        simpa using mem_get_processed_files.mpr h
      rw [hc]
      simp [h]
    · have hc : (get_processed_files (Except.ok t) p).contains f = false := by
        simpa using fun hmem => h (mem_get_processed_files.mp hmem)
      rw [hc]
      simp [h]
  refine ⟨hchar table files, ?_, ?_, ?_⟩
  · rw [get_new_files]
    exact List.filter_sublist _
  · intro f hf hns
    rw [hchar table files]
    rw [List.mem_filter]
    exact ⟨hf, by simpa using hns⟩
  · intro fh rows
    rw [hchar]
    have ha : RecordedSuccess (mark_file_processed [] p "a" fh rows "success") p "a" := by
      refine ⟨_, List.mem_singleton.mpr rfl, rfl, rfl, rfl⟩
    have hb : ¬ RecordedSuccess (mark_file_processed [] p "a" fh rows "success") p "b" := by
      rintro ⟨e, he, -, -, hpath⟩
      rcases List.mem_singleton.mp he with rfl
      simp at hpath
    have hc : ¬ RecordedSuccess (mark_file_processed [] p "a" fh rows "success") p "c" := by
      rintro ⟨e, he, -, -, hpath⟩
      rcases List.mem_singleton.mp he with rfl
      simp at hpath
    rw [List.filter_cons, List.filter_cons, List.filter_cons]
    simp [ha, hb, hc]

/-- **C7.** On the first run for a brand-new pipeline — the checkpoint table
is the freshly created one holding only the `_init` schema row, or reading
it fails — `get_new_files` treats the processed set as empty and returns the
full candidate list unchanged. -/
theorem C7_first_run_full_list (msg p : String) (files : List String) :
    get_new_files (Except.error msg) p files = files ∧
    get_new_files (Except.ok [initRow]) p files = files := by
  constructor
  · rw [get_new_files, get_processed_files]
    simp
  · rw [get_new_files]
    have hproc : get_processed_files (Except.ok [initRow]) p = [] := by
      rw [get_processed_files]
      have : ([initRow].filter
          (fun e => e.pipeline_name == p && e.status == "success")) = [] := by
        rw [List.filter_cons]
        have hst : (initRow.status == "success") = false := by decide
        rw [initRow] at hst ⊢
        simp [hst]
      rw [this]
      rfl
    rw [hproc]
    simp

/-- Witness for C7 at concrete inputs. -/
theorem C7_witness :
    get_new_files (Except.error "no table") "geo" ["a", "b"] = ["a", "b"] ∧
    get_new_files (Except.ok [initRow]) "geo" ["a", "b"] = ["a", "b"] :=
  C7_first_run_full_list "no table" "geo" ["a", "b"]

/-- Witness for C6: the concrete mark-then-filter scenario. -/
theorem C6_witness :
    get_new_files (Except.ok (mark_file_processed [] "p1" "a" "h" 3 "success")) "p1"
      ["a", "b", "c"] = ["b", "c"] :=
  (C6_get_new_files (mark_file_processed [] "p1" "a" "h" 3 "success") "p1"
    ["a", "b", "c"]).2.2.2 "h" 3

/-! ## Job manager: `JobManager` (`app/core/job_manager.py`)

The Firestore document is modeled as a record of the fields
`update_job_progress` touches; `progress_percent` (a Python float) is
modeled as a rational and `completed_at` as a set/unset flag (the wall-clock
value is irrelevant to the claims). -/

/-- The stored job document. -/
structure JobDoc where
  status : String
  total_tasks : Int
  completed_tasks : Int
  failed_tasks : Int
  progress_percent : ℚ
  has_completed_at : Bool
deriving DecidableEq, Repr

/-- The string value of a `JobStatus` member (`status.value`). -/
def JobStatus.value : JobStatus → String
  | .pending => "pending"
  | .running => "running"
  | .success => "success"
  | .failed => "failed"
  | .partialDone => "partial"
  | .cancelled => "cancelled"

/-- `JobManager.update_job_progress(job_id, status, total_tasks,
completed_tasks, failed_tasks, completed_at)`: fetch the document (`doc?`;
`none` models a missing job, which is logged and ignored — the method
returns without raising); build the partial `updates` dict; when
`completed_tasks` is passed, recompute `progress_percent` as
`completed_tasks / total * 100` where `total` is the `total_tasks` passed in
this call if present, else the stored one — only when that total is
positive; apply the updates.  Returns the stored document after the update
(`none` when the job was not found). -/
def update_job_progress (doc? : Option JobDoc) (status? : Option JobStatus)
    (total_tasks? completed_tasks? failed_tasks? : Option Int)
    (set_completed_at : Bool) : Option JobDoc :=
  match doc? with
  | none => none
  | some doc =>
    let d1 : JobDoc := match status? with
      | some st => { doc with status := st.value }
      | none => doc
    let d2 : JobDoc := match total_tasks? with
      | some t => { d1 with total_tasks := t }
      | none => d1
    let d3 : JobDoc := match completed_tasks? with
      | some c =>
        let total : Int := match total_tasks? with
          | some t => t
          | none => doc.total_tasks
        let d : JobDoc := { d2 with completed_tasks := c }
        if total > 0 then { d with progress_percent := (c : ℚ) / (total : ℚ) * 100 }
        else d
      | none => d2
    let d4 : JobDoc := match failed_tasks? with
      | some f => { d3 with failed_tasks := f }
      | none => d3
    some (if set_completed_at then { d4 with has_completed_at := true } else d4)

/-- `JobManager.get_job(job_id)` (tasks not included): `None` when the
document does not exist. -/
def get_job (store : List (String × JobDoc)) (job_id : String) : Option JobDoc :=
  store.lookup job_id

/-- **C8 counterexample.** The claim says a zero total yields a
`progress_percent` of 0%.  On a stored document with `total_tasks = 0` and
`progress_percent = 50`, passing `completed_tasks = 3` leaves
`progress_percent` at 50, not 0: the code only recomputes when the total is
positive and otherwise leaves the stored value untouched. -/
theorem C8_counterexample :
    (update_job_progress
      (some { status := "running", total_tasks := 0, completed_tasks := 0,
              failed_tasks := 0, progress_percent := 50, has_completed_at := false })
      none none (some 3) none false).map (fun d => d.progress_percent) = some 50 ∧
    (50 : ℚ) ≠ 0 := by
  constructor
  · rfl
  · norm_num

/-- **C8 (amended).** `update_job_progress` is a partial update;
`progress_percent` is recomputed whenever `completed_tasks` is passed, as
`completed_tasks / total * 100` with `total` the `total_tasks` passed in the
same call if present, else the stored one — provided that total is positive;
with stored `total_tasks = 6` and `completed_tasks = 3` the result is 50%;
when the freshest total is zero (or negative) `progress_percent` is left at
its stored value rather than recomputed — there is no division-by-zero
error; a missing job is ignored (no update, no exception). -/
theorem C8_update_job_progress (doc : JobDoc) (status? : Option JobStatus)
    (total_tasks? : Option Int) (c : Int) (failed_tasks? : Option Int)
    (set_completed_at : Bool) :
    ((match total_tasks? with | some t => t | none => doc.total_tasks) > 0 →
      (update_job_progress (some doc) status? total_tasks? (some c) failed_tasks?
          set_completed_at).map (fun d => d.progress_percent) =
        some ((c : ℚ) /
          ((match total_tasks? with | some t => t | none => doc.total_tasks : Int) : ℚ)
          * 100)) ∧
    ((match total_tasks? with | some t => t | none => doc.total_tasks) ≤ 0 →
      (update_job_progress (some doc) status? total_tasks? (some c) failed_tasks?
          set_completed_at).map (fun d => d.progress_percent) =
        some doc.progress_percent) ∧
    (update_job_progress (some { doc with total_tasks := 6 }) none none (some 3) none
        false).map (fun d => d.progress_percent) = some 50 ∧
    update_job_progress none status? total_tasks? (some c) failed_tasks?
      set_completed_at = none := by
  refine ⟨?_, ?_, ?_, rfl⟩
  · intro hpos
    simp only [update_job_progress]
    cases status? <;> cases total_tasks? <;> cases failed_tasks? <;>
      cases set_completed_at <;>
      simp_all
  · intro hnonpos
    simp only [update_job_progress]
    cases status? <;> cases total_tasks? <;> cases failed_tasks? <;>
      cases set_completed_at <;>
      simp_all <;>
      rw [if_neg (by omega)]
  · simp only [update_job_progress]
    norm_num

/-- Witness for C8 at a concrete document. -/
theorem C8_witness :
    (update_job_progress
      (some { status := "running", total_tasks := 6, completed_tasks := 0,
              failed_tasks := 0, progress_percent := 0, has_completed_at := false })
      none none (some 3) none false).map (fun d => d.progress_percent) = some 50 := by
  have h := (C8_update_job_progress
    { status := "running", total_tasks := 6, completed_tasks := 0,
      failed_tasks := 0, progress_percent := 0, has_completed_at := false }
    none none 3 none false).1 (by norm_num)
  rw [h]
  norm_num

/-- **C9 counterexample.** The claim says every Tracker/Checkpoint-store
method surfaces persistence failures to its caller — in particular that
`clear_checkpoints` propagates them.  It does not: its body is wrapped in
`try/except Exception: logger.error(...)`, so on a failing read the method
returns normally (no exception reaches the caller) and performs no write. -/
theorem C9_counterexample :
    clear_checkpoints (Except.error "delta read failed") "geo" = Except.ok none ∧
    ∀ e, clear_checkpoints (Except.error "delta read failed") "geo" ≠ Except.error e := by
  refine ⟨rfl, ?_⟩
  intro e h
  rw [clear_checkpoints] at h
  cases h

/-- **C9 (amended).** Looking up a non-existent job yields a not-found
signal rather than an exception — `get_job` returns `None` and
`update_job_progress` returns without updating anything — but persistence
failures are not surfaced by every Checkpoint Store method: a failure of the
table read is caught and logged, with `clear_checkpoints` returning normally
without writing and `get_processed_files` yielding the empty set. -/
theorem C9_failure_handling (msg p job_id : String) (store : List (String × JobDoc))
    (status? : Option JobStatus) (t? c? f? : Option Int) (ca : Bool)
    (hmiss : store.lookup job_id = none) :
    clear_checkpoints (Except.error msg) p = Except.ok none ∧
    get_processed_files (Except.error msg) p = [] ∧
    update_job_progress none status? t? c? f? ca = none ∧
    get_job store job_id = none :=
  ⟨rfl, rfl, rfl, hmiss⟩

/-- Witness for the amended C9 at concrete inputs. -/
theorem C9_witness :
    clear_checkpoints (Except.error "boom") "geo" = Except.ok none ∧
    get_processed_files (Except.error "boom") "geo" = [] ∧
    update_job_progress none none none none none false = none ∧
    get_job [] "missing-job" = none :=
  C9_failure_handling "boom" "geo" "missing-job" [] none none none none false rfl

/-! ## Malformed dependency strings (C10) -/

/-- The registry with all dot-free (malformed) dependency strings removed. -/
def filterDotted (reg : Registry) : Registry :=
  reg.map (fun p => (p.1, p.2.filter (fun d => decide ('.' ∈ d.toList))))

theorem lookup_map_snd {α β γ : Type} [BEq α] (g : β → γ) :
    ∀ (l : List (α × β)) (k : α),
      (l.map (fun p => (p.1, g p.2))).lookup k = (l.lookup k).map g := by
  intro l
  induction l with
  | nil => intro k; rfl
  | cons p rest ih =>
    intro k
    obtain ⟨k', v⟩ := p
    rw [List.map_cons, List.lookup, List.lookup]
    cases hk : k == k' with
    | true => rfl
    | false => exact ih k

theorem getDependencies_filterDotted (reg : Registry) (fn : String) :
    getDependencies (filterDotted reg) fn =
      (getDependencies reg fn).filter (fun d => decide ('.' ∈ d.toList)) := by
  rw [getDependencies, getDependencies, filterDotted, lookup_map_snd]
  cases reg.lookup fn with
  | none => rfl
  | some ds => rfl

theorem resolveList_congrF
    {f g : PipelineLayer → String → Except ResolveError (List PipelineId)}
    (h : ∀ dl dn, f dl dn = g dl dn) :
    ∀ deps, resolveList f deps = resolveList g deps := by
  intro deps
  induction deps with
  | nil => rfl
  | cons d rest ih =>
    rw [resolveList, resolveList]
    by_cases hdot : '.' ∈ d.toList
    · rw [if_pos hdot, if_pos hdot]
      cases PipelineLayer.ofString? (splitDot d).1 with
      | none => rfl
      | some dl =>
        dsimp only
        rw [h dl (splitDot d).2, ih]
    · rw [if_neg hdot, if_neg hdot]
      exact ih

theorem resolveList_filter_dotted
    (f : PipelineLayer → String → Except ResolveError (List PipelineId)) :
    ∀ deps, resolveList f (deps.filter (fun d => decide ('.' ∈ d.toList))) =
      resolveList f deps := by
  intro deps
  induction deps with
  | nil => rfl
  | cons d rest ih =>
    rw [List.filter_cons]
    by_cases hdot : '.' ∈ d.toList
    · rw [if_pos (by simpa using hdot)]
      rw [resolveList, resolveList, if_pos hdot, if_pos hdot]
      cases PipelineLayer.ofString? (splitDot d).1 with
      | none => rfl
      | some dl =>
        dsimp only
        cases f dl (splitDot d).2 with
        | error e => rfl
        | ok sub =>
          dsimp only
          rw [ih]
    · rw [if_neg (by simpa using hdot)]
      rw [resolveList, if_neg hdot]
      exact ih

theorem resolveDeps_filterDotted (reg : Registry) :
    ∀ (fuel : Nat) (layer : PipelineLayer) (name : String) (visited : List String),
      resolveDeps (filterDotted reg) fuel layer name visited =
        resolveDeps reg fuel layer name visited := by
  intro fuel
  induction fuel with
  | zero => intro l n v; rfl
  | succ fuel ih =>
    intro layer name visited
    rw [resolveDeps, resolveDeps]
    by_cases hvis : fullNameOf layer name ∈ visited
    · rw [if_pos hvis, if_pos hvis]
    · rw [if_neg hvis, if_neg hvis]
      rw [getDependencies_filterDotted, resolveList_filter_dotted]
      rw [resolveList_congrF
        (fun dl dn => ih dl dn (fullNameOf layer name :: visited))
        (getDependencies reg (fullNameOf layer name))]

theorem resolve_filterDotted (reg : Registry) (layer : PipelineLayer) (name : String) :
    resolve (filterDotted reg) layer name = resolve reg layer name := by
  rw [resolve, resolve]
  have hlen : (filterDotted reg).length = reg.length := List.length_map _ _
  rw [hlen, resolveDeps_filterDotted]

theorem resolveList_all_skipped
    (f : PipelineLayer → String → Except ResolveError (List PipelineId)) :
    ∀ deps, (∀ d ∈ deps, '.' ∉ d.toList) → resolveList f deps = Except.ok [] := by
  intro deps
  induction deps with
  | nil => intro _; rfl
  | cons d rest ih =>
    intro h
    rw [resolveList, if_neg (h d (List.mem_cons_self _ _))]
    exact ih (fun d' hd' => h d' (List.mem_cons_of_mem _ hd'))

/-- **C10.** A declared dependency string without a `"."` separator is
silently skipped during resolution: the loop's dot guard drops it without
resolving it or raising (skipping it leaves the loop's result unchanged),
removing every dot-free dependency string from the registry changes no
resolution outcome, and a pipeline whose dependency list holds only such
malformed strings resolves to the singleton list holding just the pipeline
itself. -/
theorem C10_malformed_deps_skipped (reg : Registry) (layer : PipelineLayer) (name : String)
    (f : PipelineLayer → String → Except ResolveError (List PipelineId))
    (d : String) (rest : List String) (hd : '.' ∉ d.toList)
    (honly : ∀ d' ∈ getDependencies reg (fullNameOf layer name), '.' ∉ d'.toList) :
    resolveList f (d :: rest) = resolveList f rest ∧
    resolve (filterDotted reg) layer name = resolve reg layer name ∧
    resolve reg layer name = Except.ok [(layer, name)] := by
  refine ⟨?_, resolve_filterDotted reg layer name, ?_⟩
  · rw [resolveList, if_neg hd]
  · rw [resolve, resolveDeps, if_neg (List.not_mem_nil _),
      resolveList_all_skipped _ _ honly]
    rfl

/-- Witness for C10: a pipeline whose only declared dependencies are
dot-free strings resolves to itself alone. -/
theorem C10_witness :
    resolve [("bronze.x", ["nodots", "garbage"])] PipelineLayer.bronze "x" =
      Except.ok [(PipelineLayer.bronze, "x")] :=
  (C10_malformed_deps_skipped [("bronze.x", ["nodots", "garbage"])] PipelineLayer.bronze "x"
    (fun _ _ => Except.ok []) "nodots" [] (by decide) (by decide)).2.2

end Odace